import Mathlib

/-!
Verification of the miniconf configuration-manager library (`src/miniconf.h`).

The development shallowly embeds the resolution engine of the library:
the dynamically-typed `Value` container, the option registry, the token
classifier, the command-line scanning state machine of `Config::parse`,
the format/validation checks, and the JSON flatten/unflatten machinery
(`Config::parseJSON` / the JSON branch of `Config::serialize`).

The source distribution contains two revisions of the library.  The
current revision (the one inside `namespace miniconf`) is embedded in
full; the earlier revision differs in `Config::parse` (it loads a sole
positional argument as a configuration file after the token scan), in
`Config::validate` and in its flat JSON loader, and those functions are
embedded separately with an `A` suffix (`parseA`, `validateA`, ...).

Modelling conventions:
* C++ `std::map<std::string, T>` is modelled by `Smap T`, an association
  list kept strictly sorted by the lexicographic character order
  (`strLt`), with `Smap.set` giving the insert-or-assign behaviour of
  `map::operator[]` followed by assignment.
* The raw byte payload of `Value` is modelled by a typed `Payload`
  together with the allocation size in bytes; `double` payloads are
  modelled by exact rationals.
* `strtod` / `sscanf("%lf")` / `sscanf("%d")` are modelled by the
  executable prefix scanners `scanDouble` / `scanInt` over the decimal
  numeric grammar (optional leading white space, optional sign, digits
  with optional fraction and optional exponent, longest match with
  back-off on an incomplete exponent).  The C99 hexadecimal and
  inf/nan forms accepted by `strtod` are outside the token language
  considered here, and machine-integer overflow is not modelled.
* File input is modelled by an oracle `files : String → Option Json`
  mapping a path to its parsed document; a `none` result behaves like an
  unreadable or unparsable file (picojson then yields a null document).
  Only the JSON loader branch of `Config::config` is modelled; the CSV
  branch is never selected by the paths used in the theorems below.
* Log records are kept structurally as (severity, token, message)
  triples; the `snprintf` tag formatting of `Config::log` is
  presentation only.  Calls to `printf`/`fprintf`/`help()`/`usage()`
  only produce terminal output and do not change the engine state, so
  they are omitted.
-/

namespace Miniconf

/-- Value::DataType from miniconf.h. -/
inductive DataType where
  | UNKNOWN
  | INT
  | NUMBER
  | BOOL
  | STRING
deriving DecidableEq, Repr

/-- Typed view of the raw byte buffer `Value::_data`.  `pNum` models a
C++ `double` by an exact rational. -/
inductive Payload where
  | pInt (i : Int)
  | pNum (q : Rat)
  | pBool (b : Bool)
  | pStr (s : String)
deriving DecidableEq, Repr

/-- The `Value` container: type tag `_type`, allocation size `_size`
(in bytes) and payload `_data` (`none` models a null `_data` pointer). -/
structure MValue where
  typ : DataType
  size : Nat
  data : Option Payload
deriving DecidableEq, Repr

/-- Value::Value(): the empty value (UNKNOWN tag, null data). -/
def MValue.empty : MValue := ⟨.UNKNOWN, 0, none⟩

/-- Value::unknown(). -/
def MValue.unknown : MValue := MValue.empty

/-- Value::Value(const int&): copyData of sizeof(int) = 4 bytes. -/
def MValue.ofInt (i : Int) : MValue := ⟨.INT, 4, some (.pInt i)⟩

/-- Value::Value(const double&): copyData of sizeof(double) = 8 bytes. -/
def MValue.ofNum (q : Rat) : MValue := ⟨.NUMBER, 8, some (.pNum q)⟩

/-- Value::Value(const bool&): copyData of sizeof(bool) = 1 byte. -/
def MValue.ofBool (b : Bool) : MValue := ⟨.BOOL, 1, some (.pBool b)⟩

/-- Value::Value(const std::string&): copyData of size()+1 bytes. -/
def MValue.ofStr (s : String) : MValue := ⟨.STRING, s.length + 1, some (.pStr s)⟩

/-- Value::isEmpty(): data pointer is null or the tag is UNKNOWN. -/
def MValue.isEmpty (v : MValue) : Bool := v.data.isNone || v.typ == .UNKNOWN

/-- Value::clearData(): releases the payload when `_size != 0` and the
data pointer is non-null; the tag and size fields are left untouched. -/
def MValue.clearData (v : MValue) : MValue :=
  if v.size ≠ 0 ∧ v.data.isSome then { v with data := none } else v

/-- Value::moveData(other._data, other._size, other._type): the
destination takes the source's tag, size and payload, and the source's
data pointer is nulled (its tag and size fields are not reset).
Returns (new destination, new source). -/
def MValue.moveDataFrom (dst src : MValue) : MValue × MValue :=
  ((⟨src.typ, src.size, src.data⟩ : MValue), { src with data := none })

/-- Value::Value(const Value&): a fresh value copyData'd from the
source (a byte-for-byte copy of the payload). -/
def MValue.copyCtor (src : MValue) : MValue := ⟨src.typ, src.size, src.data⟩

/-- Value::operator=(const Value&): clearData on the destination, then
copyData from the source. -/
def MValue.copyAssign (dst src : MValue) : MValue :=
  let d := dst.clearData
  (MValue.moveDataFrom d src).1

/-- Value::Value(Value&&): default-construct then moveData from the
source; returns (constructed value, moved-from source). -/
def MValue.moveCtor (src : MValue) : MValue × MValue :=
  MValue.moveDataFrom MValue.empty src

/-- Value::operator=(Value&&): moveData from the source (the previous
destination payload is not released first in the source); returns
(new destination, moved-from source). -/
def MValue.moveAssign (dst src : MValue) : MValue × MValue :=
  MValue.moveDataFrom dst src

/-! ### Sorted string maps (std::map) -/

/-- Lexicographic strict order on character lists, as used by
`std::map<std::string, _>` (byte-wise `operator<`). -/
def charListLt : List Char → List Char → Bool
  | [], [] => false
  | [], _ :: _ => true
  | _ :: _, [] => false
  | a :: as, b :: bs => if a < b then true else if b < a then false else charListLt as bs

/-- Lexicographic strict order on strings. -/
def strLt (a b : String) : Bool := charListLt a.data b.data

/-- Association list kept strictly sorted by `strLt`, modelling
`std::map<std::string, α>`. -/
abbrev Smap (α : Type) : Type := List (String × α)

/-- Lookup in an `Smap` (std::map::find). -/
def Smap.lookup {α : Type} : Smap α → String → Option α
  | [], _ => none
  | (k', v') :: t, k => if k = k' then some v' else Smap.lookup t k

/-- Insert-or-assign into an `Smap`, keeping it sorted: the combined
effect of `map[key] = value`. -/
def Smap.set {α : Type} : Smap α → String → α → Smap α
  | [], k, v => [(k, v)]
  | (k', v') :: t, k, v =>
    if strLt k k' then (k, v) :: (k', v') :: t
    else if k = k' then (k, v) :: t
    else (k', v') :: Smap.set t k v

/-- Erase a key from an `Smap` (std::map::erase). -/
def Smap.erase {α : Type} : Smap α → String → Smap α
  | [], _ => []
  | (k', v') :: t, k => if k = k' then t else (k', v') :: Smap.erase t k

/-- Key membership in an `Smap` (find != end). -/
def Smap.containsKey {α : Type} (m : Smap α) (k : String) : Bool :=
  (m.lookup k).isSome

/-- Strict sortedness of an `Smap`: the std::map representation
invariant. -/
abbrev SortedSmap {α : Type} (m : Smap α) : Prop :=
  List.Pairwise (fun a b => strLt a.1 b.1 = true) m

/-! ### Log and configuration state -/

/-- Config::LogLevel. -/
inductive LogLevel where
  | INFO
  | WARNING
  | ERROR
  | NONE
deriving DecidableEq, Repr

/-- Numeric rank of a log level, implementing the C++ enum comparisons
(INFO < WARNING < ERROR < NONE). -/
def LogLevel.toNat : LogLevel → Nat
  | .INFO => 0
  | .WARNING => 1
  | .ERROR => 2
  | .NONE => 3

/-- worseLevel(a, b) from miniconf.h: (a < b) ? b : a. -/
def worseLevel (a b : LogLevel) : LogLevel :=
  if a.toNat < b.toNat then b else a

/-- One record of the parse log: severity, subject token and message.
The C++ code stores the `snprintf`-formatted string; the severity tag,
token and message are kept structurally here. -/
structure LogEntry where
  level : LogLevel
  token : String
  msg : String
deriving DecidableEq, Repr

/-- Config::Option: flag, shortflag, description, default value,
required and hidden switches.  (The earlier revision's Option class has
no hidden field; its code never reads `hidden`, so the field is simply
unused there.) -/
structure Opt where
  flag : String
  shortflag : String
  description : String
  defaultValue : MValue
  required : Bool
  hidden : Bool
deriving DecidableEq, Repr

/-- Config::Option::type(): the data type of the default value. -/
def Opt.type (o : Opt) : DataType := o.defaultValue.typ

/-- The wildcard option created at the start of Config::parse:
a default-constructed Option whose defaultValue is the empty string
(hence STRING-typed), with the flag set per captured token. -/
def wildcardOpt (flag : String) : Opt :=
  ⟨flag, "", "", MValue.ofStr "", false, false⟩

/-- The mutable state of a Config object: the registry `_options`, the
resolved map `_optionValues`, the log stack `_log`, the log threshold
`_logLevel`, the program description `_description` and the
`_autoHelp` / `_loadConfig` switches.  (`_verbose` and `_exeName` only
affect terminal output and are omitted.) -/
structure ConfigState where
  options : Smap Opt
  optionValues : Smap MValue
  log : List LogEntry
  logLevel : LogLevel
  description : String
  autoHelp : Bool
  loadConfig : Bool
deriving DecidableEq, Repr

/-- Config::log(LogLevel, token, msg): drops the record when its
severity is below the configured threshold, otherwise appends it. -/
def ConfigState.logMsg (st : ConfigState) (lv : LogLevel) (token msg : String) : ConfigState :=
  if lv.toNat < st.logLevel.toNat then st
  else { st with log := st.log ++ [⟨lv, token, msg⟩] }

/-- Config::contains(flag): the resolved map holds the key. -/
def ConfigState.containsVal (st : ConfigState) (flag : String) : Bool :=
  st.optionValues.containsKey flag

/-- Config::operator[](flag): `_optionValues[flag]` on a std::map
value-initializes a missing entry; returns the read value and the
possibly-extended state. -/
def ConfigState.bracket (st : ConfigState) (flag : String) : MValue × ConfigState :=
  match st.optionValues.lookup flag with
  | some v => (v, st)
  | none => (MValue.empty, { st with optionValues := st.optionValues.set flag MValue.empty })

/-- Config::setDefaultValues(): seed the resolved map with every
registered option's default value. -/
def ConfigState.setDefaultValues (st : ConfigState) : ConfigState :=
  { st with optionValues := st.options.foldl (fun m kv => m.set kv.1 kv.2.defaultValue) st.optionValues }

/-! ### Numeric token scanning (strtod / sscanf models) -/

/-- White-space in the C default locale, skipped by strtod and sscanf. -/
def isWsChar (c : Char) : Bool :=
  c = ' ' || c = '\t' || c = '\n' || c = '\r' || c = '\x0b' || c = '\x0c'

/-- Decimal digit test. -/
def isDigitChar (c : Char) : Bool := '0' ≤ c && c ≤ '9'

/-- Split a leading optional sign; returns (negative?, rest). -/
def scanSign : List Char → Bool × List Char
  | '-' :: r => (true, r)
  | '+' :: r => (false, r)
  | l => (false, l)

/-- Take the longest prefix of decimal digits. -/
def takeDigits : List Char → List Char × List Char
  | [] => ([], [])
  | c :: r =>
    if isDigitChar c then
      let p := takeDigits r
      (c :: p.1, p.2)
    else ([], c :: r)

/-- Value of a digit string. -/
def digitsVal (ds : List Char) : Nat :=
  ds.foldl (fun a c => 10 * a + (c.toNat - '0'.toNat)) 0

/-- Scan an optional exponent part `(e|E)[+|-]digits`.  If the digits
are missing the scanner backs off and consumes nothing, as strtod
does for an incomplete exponent. -/
def scanExp (l : List Char) : Int × List Char :=
  match l with
  | c :: r =>
    if c = 'e' || c = 'E' then
      let s := scanSign r
      let d := takeDigits s.2
      if d.1 = [] then (0, l)
      else ((if s.1 then -(digitsVal d.1 : Int) else (digitsVal d.1 : Int)), d.2)
    else (0, l)
  | [] => (0, l)

/-- Core of the strtod model on the decimal grammar: optional sign,
digits with optional fraction (at least one digit overall), optional
exponent.  Returns the parsed value and the unconsumed suffix, or
`none` when no conversion is performed.  The value
`±(intDigits.fracDigits) × 10^exp` is assembled as one exact rational
`mkRat (±mantissa × 10^max(exp,0)) (10^fracLen × 10^max(-exp,0))`. -/
def scanDoubleBody (l : List Char) : Option (Rat × List Char) :=
  let s := scanSign l
  let d := takeDigits s.2
  let cont : Nat → Nat → List Char → Option (Rat × List Char) := fun mant fracLen rest =>
    let e := scanExp rest
    let num : Int :=
      (if s.1 then -(mant : Int) else (mant : Int)) * ((10 ^ e.1.toNat : Nat) : Int)
    let den : Nat := 10 ^ fracLen * 10 ^ (-e.1).toNat
    some (mkRat num den, e.2)
  match d.2 with
  | '.' :: r3 =>
    let f := takeDigits r3
    if d.1 = [] ∧ f.1 = [] then none
    else cont (digitsVal d.1 * 10 ^ f.1.length + digitsVal f.1) f.1.length f.2
  | _ =>
    if d.1 = [] then none
    else cont (digitsVal d.1) 0 d.2

/-- Model of `std::strtod`: skip leading white space, then scan a
decimal literal; `none` models "no conversion performed" (endptr set
back to the start of the token). -/
def scanDouble (l : List Char) : Option (Rat × List Char) :=
  scanDoubleBody (l.dropWhile isWsChar)

/-- Model of `sscanf(token, "%d", &v)`: skip white space, optional
sign, at least one decimal digit; trailing characters are ignored. -/
def scanInt (l : List Char) : Option Int :=
  let s := scanSign (l.dropWhile isWsChar)
  let d := takeDigits s.2
  if d.1 = [] then none
  else some (if s.1 then -(digitsVal d.1 : Int) else (digitsVal d.1 : Int))

/-! ### Token classification and value parsing -/

/-- Whether the strtod model performs a conversion on a token and
consumes it entirely — the test `*endptr == '\0' && endptr != token`
inside Config::getTokenType. -/
def strtodWholeToken (t : String) : Bool :=
  match scanDouble t.data with
  | some (_, []) => true
  | _ => false

/-- Case-insensitive string equality (used to state what the spec
claims about Bool parsing). -/
def ciEq (a b : String) : Bool :=
  a.data.map Char.toLower == b.data.map Char.toLower

/-- Config::TokenType. -/
inductive TokenType where
  | UNKNOWN
  | FLAG
  | SHORTFLAG
  | VALUE
deriving DecidableEq, Repr

/-- Config::getTokenType: the empty token is UNKNOWN; a token starting
with '-' is a VALUE if strtod consumes it entirely (and consumes at
least one character), else a FLAG when the second character is also
'-', else a SHORTFLAG; anything else is a VALUE. -/
def getTokenType (token : String) : TokenType :=
  match token.data with
  | [] => .UNKNOWN
  | c :: rest =>
    if c = '-' then
      match scanDouble (c :: rest) with
      | some (_, []) => .VALUE
      | _ =>
        match rest with
        | '-' :: _ => .FLAG
        | _ => .SHORTFLAG
    else .VALUE

/-- Config::translateShortflag: linear search of the registry (in map
order) for an option with the given shortflag; falls back to the
input when no option matches. -/
def translateShortflag (options : Smap Opt) (sf : String) : String :=
  match options.find? (fun kv => kv.2.shortflag == sf) with
  | some kv => kv.1
  | none => sf

/-- The `flag` string computed inside Config::getOption: the token
minus its "--" prefix for a FLAG, the shortflag-translated token minus
its "-" prefix for a SHORTFLAG, empty otherwise. -/
def getOptionKey (options : Smap Opt) (token : String) (tt : TokenType) : String :=
  if tt = .FLAG then token.drop 2
  else if tt = .SHORTFLAG then translateShortflag options (token.drop 1)
  else ""

/-- Config::getOption: resolve a flag token to its registered option;
null when the computed flag is empty or unregistered. -/
def getOption (options : Smap Opt) (token : String) (tt : TokenType) : Option Opt :=
  let flag := getOptionKey options token tt
  if flag = "" then none else options.lookup flag

/-- Config::parseValue: convert a token according to the declared data
type.  INT and NUMBER use the sscanf models and yield an empty value on
failure; BOOL yields false exactly on the five literals checked by the
code and true otherwise; STRING always succeeds. -/
def parseValue (token : String) (dataType : DataType) : MValue :=
  if dataType = .INT then
    match scanInt token.data with
    | some v => MValue.ofInt v
    | none => MValue.unknown
  else if dataType = .NUMBER then
    match scanDouble token.data with
    | some p => MValue.ofNum p.1
    | none => MValue.empty
  else if dataType = .BOOL then
    if token = "false" ∨ token = "False" ∨ token = "FALSE" ∨ token = "F" ∨ token = "f"
    then MValue.ofBool false
    else MValue.ofBool true
  else if dataType = .STRING then MValue.ofStr token
  else MValue.unknown

/-! ### Format check and validation -/

/-- One iteration of the inner duplicate-shortflag loop of
Config::checkFormat: option `o` against option `o2`. -/
def dupCheckStep (o : Opt) (acc : LogLevel × ConfigState) (kv2 : String × Opt) :
    LogLevel × ConfigState :=
  let o2 := kv2.2
  if o.flag ≠ o2.flag ∧ o.shortflag = o2.shortflag ∧ o.shortflag ≠ "" then
    (worseLevel acc.1 .ERROR,
     acc.2.logMsg .ERROR o.flag ("duplicate short flags (" ++ o2.shortflag ++ ")"))
  else acc

/-- One iteration of the outer loop of Config::checkFormat: the
missing-default error, the duplicate-shortflag scan and the
description / shortflag warnings for one option. -/
def checkFormatStep (allOpts : Smap Opt) (acc : LogLevel × ConfigState) (kv : String × Opt) :
    LogLevel × ConfigState :=
  let o := kv.2
  let a1 :=
    if ¬o.required ∧ o.defaultValue.isEmpty then
      (worseLevel acc.1 .ERROR, acc.2.logMsg .ERROR o.flag "default value is not defined")
    else acc
  let a2 := allOpts.foldl (dupCheckStep o) a1
  let a3 :=
    if o.description = "" then
      (worseLevel a2.1 .WARNING, a2.2.logMsg .WARNING o.flag "no description text for argument")
    else a2
  if o.shortflag = "" then
    (worseLevel a3.1 .WARNING, a3.2.logMsg .WARNING o.flag "no short flag is provided")
  else a3

/-- Config::checkFormat: scan the registry for format errors and
warnings, returning the worst severity together with the state holding
the emitted log records. -/
def ConfigState.checkFormat (st : ConfigState) : LogLevel × ConfigState :=
  let a := st.options.foldl (checkFormatStep st.options) (.INFO, st)
  if st.description = "" then
    (worseLevel a.1 .WARNING, a.2.logMsg .WARNING "" "No program description text is provided")
  else a

/-- Config::validate of the current revision: first erase the resolved
values of hidden options, then report an Error for every remaining
empty value and for every non-hidden option without a resolved
value. -/
def ConfigState.validate (st : ConfigState) : LogLevel × ConfigState :=
  let st1 := st.options.foldl
    (fun s kv =>
      if kv.2.hidden ∧ s.optionValues.containsKey kv.1 then
        { s with optionValues := s.optionValues.erase kv.1 }
      else s) st
  let a2 := st1.optionValues.foldl
    (fun (acc : LogLevel × ConfigState) kv =>
      if kv.2.isEmpty then
        (worseLevel acc.1 .ERROR, acc.2.logMsg .ERROR kv.1 "option contains invalid value")
      else acc) (.INFO, st1)
  st1.options.foldl
    (fun (acc : LogLevel × ConfigState) kv =>
      if ¬acc.2.optionValues.containsKey kv.1 ∧ ¬kv.2.hidden then
        (worseLevel acc.1 .ERROR, acc.2.logMsg .ERROR kv.1 "option is undefined")
      else acc) a2

/-- Config::validate of the earlier revision: no hidden-option
handling; every empty value and every option without a resolved value
is an Error. -/
def ConfigState.validateA (st : ConfigState) : LogLevel × ConfigState :=
  let a1 := st.optionValues.foldl
    (fun (acc : LogLevel × ConfigState) kv =>
      if kv.2.isEmpty then
        (worseLevel acc.1 .ERROR, acc.2.logMsg .ERROR kv.1 "option contains invalid value")
      else acc) (.INFO, st)
  st.options.foldl
    (fun (acc : LogLevel × ConfigState) kv =>
      if ¬acc.2.optionValues.containsKey kv.1 then
        (worseLevel acc.1 .ERROR, acc.2.logMsg .ERROR kv.1 "option is undefined")
      else acc) a1

/-! ### JSON documents and the flattening loader -/

/-- Abstract picojson value: number (C++ double, modelled by an exact
rational), boolean, string, object (std::map of fields, kept sorted),
array, or null. -/
inductive Json where
  | num (q : Rat)
  | bool (b : Bool)
  | str (s : String)
  | obj (fields : List (String × Json))
  | arr (elems : List Json)
  | null

/-- static_cast<int>(double) truncation toward zero, on the rational
model of doubles. -/
def ratTrunc (q : Rat) : Int := if q < 0 then -((-q).floor) else q.floor

/-- Config::getJSONValue: store one scalar under a flattened key.  A
key matching a registered option is coerced to the option's declared
type when the scalar is type-compatible (and a Warning is logged
otherwise); an unregistered key stores the scalar as-is. -/
def ConfigState.getJSONValue (st : ConfigState) (v : Json) (flag : String) :
    Bool × ConfigState :=
  match st.options.lookup flag with
  | some opt =>
    match opt.type, v with
    | .INT, .num q => (true, { st with optionValues := st.optionValues.set flag (MValue.ofInt (ratTrunc q)) })
    | .NUMBER, .num q => (true, { st with optionValues := st.optionValues.set flag (MValue.ofNum q) })
    | .BOOL, .bool b => (true, { st with optionValues := st.optionValues.set flag (MValue.ofBool b) })
    | .STRING, .str s => (true, { st with optionValues := st.optionValues.set flag (MValue.ofStr s) })
    | _, _ =>
      (false, st.logMsg .WARNING flag ("Unable to parse the option from config file, flag = " ++ flag))
  | none =>
    match v with
    | .num q => (true, { st with optionValues := st.optionValues.set flag (MValue.ofNum q) })
    | .bool b => (true, { st with optionValues := st.optionValues.set flag (MValue.ofBool b) })
    | .str s => (true, { st with optionValues := st.optionValues.set flag (MValue.ofStr s) })
    | _ => (false, st.logMsg .WARNING flag "Unable to parse the option from config file.")

/-- The flag string built while descending into a JSON object in
Config::parseJSON: `flag + (flag.empty() ? "" : ".") + key`. -/
def flagJoin (flag key : String) : String :=
  flag ++ (if flag = "" then "" else ".") ++ key

mutual
/-- Config::parseJSON: flatten a document into the resolved map using
dot-joined keys.  Scalars are stored via getJSONValue; objects recurse
over their fields, and the C++ `success = success && parseJSON(...)`
short-circuits, so fields after the first failure are skipped; arrays
yield false without logging; anything else logs a Warning and yields
false. -/
def parseJSONv : Json → String → ConfigState → Bool × ConfigState
  | .num q, flag, st => st.getJSONValue (.num q) flag
  | .bool b, flag, st => st.getJSONValue (.bool b) flag
  | .str s, flag, st => st.getJSONValue (.str s) flag
  | .obj fields, flag, st => parseJSONfields fields flag st
  | .arr _, _, st => (false, st)
  | .null, flag, st =>
    (false, st.logMsg .WARNING flag ("Unable to parse JSON, abort, flag = " ++ flag))

/-- The field loop of Config::parseJSON over one object, threading the
short-circuiting success flag. -/
def parseJSONfields : List (String × Json) → String → ConfigState → Bool × ConfigState
  | [], _, st => (true, st)
  | (key, item) :: rest, flag, st =>
    let r := parseJSONv item (flagJoin flag key) st
    if r.1 then parseJSONfields rest flag r.2 else (false, r.2)
end

/-- Config::loadJSON: parse the document and flatten it from the empty
key prefix. -/
def ConfigState.loadJSON (st : ConfigState) (doc : Json) : Bool × ConfigState :=
  parseJSONv doc "" st

/-- Extension extraction used by Config::config and Config::serialize:
the substring after the last '.', or the empty string when the path
contains no dot. -/
def extOf (s : String) : String :=
  if s.data.contains '.' then String.mk ((s.data.reverse.takeWhile (fun c => c ≠ '.')).reverse)
  else ""

/-- Config::config of the current revision, with file reading modelled
by the `files` oracle (a missing or unparsable file gives a null
document).  Extensions other than csv/CSV dispatch to loadJSON; the
CSV loader is not modelled (the claims only exercise JSON paths), so
the csv/CSV branch leaves the state unchanged. -/
def ConfigState.configLoad (files : String → Option Json) (st : ConfigState) (path : String) :
    ConfigState :=
  if extOf path = "csv" ∨ extOf path = "CSV" then st
  else (st.loadJSON ((files path).getD .null)).2

/-! ### The command-line scan -/

/-- The body of the token loop of Config::parse for one token, acting
on the pair (currentOption, state). -/
def scanStep (acc : Option Opt × ConfigState) (token : String) : Option Opt × ConfigState :=
  let cur := acc.1
  let st := acc.2
  match getTokenType token with
  | .UNKNOWN => (cur, st.logMsg .ERROR token "unknown input")
  | .VALUE =>
    match cur with
    | some o =>
      let newValue := parseValue token o.type
      if newValue.isEmpty then
        (none, st.logMsg .WARNING token "unvalid value type is provided")
      else
        (none, ({ st with optionValues := st.optionValues.set o.flag (parseValue token o.type) }).logMsg
          .INFO token "value parsed successfully")
    | none => (none, st.logMsg .WARNING token "unassociated argument is not stored")
  | tt =>
    let found := getOption st.options token tt
    let next : Option Opt × ConfigState :=
      match found with
      | none =>
        let stw := st.logMsg .WARNING token "unrecognized flag"
        if tt = TokenType.FLAG then (some (wildcardOpt (token.drop 2)), stw) else (none, stw)
      | some o => (some o, st)
    match next.1 with
    | some o =>
      if o.type = .BOOL then
        (next.1, { next.2 with optionValues := next.2.optionValues.set o.flag (MValue.ofBool true) })
      else next
    | none => next

/-- The config-file pre-scan of Config::parse: for every adjacent pair
(argv[i], argv[i+1]) with i ≥ 1, when the first token is "--config" or
"-cfg" and the second classifies as a VALUE, load that path. -/
def prescanConfig (files : String → Option Json) (st : ConfigState) :
    List String → ConfigState
  | a :: b :: rest =>
    let st' :=
      if (a = "--config" ∨ a = "-cfg") ∧ getTokenType b = .VALUE then st.configLoad files b
      else st
    prescanConfig files st' (b :: rest)
  | _ => st

/-- Config::parse of the current revision.  `argv` includes the
program name at position 0.  The auto-help branch only prints and is
omitted.  Returns the success flag and the final state. -/
def Config.parse (files : String → Option Json) (argv : List String) (st : ConfigState) :
    Bool × ConfigState :=
  let cf := st.checkFormat
  if LogLevel.ERROR.toNat ≤ cf.1.toNat ∧ cf.2.logLevel.toNat ≤ LogLevel.ERROR.toNat then
    (false, cf.2)
  else
    let st2 := cf.2.setDefaultValues
    let st3 := if st2.loadConfig then prescanConfig files st2 argv.tail else st2
    let st4 := (argv.tail.foldl scanStep (none, st3)).2
    let va := st4.validate
    if LogLevel.ERROR.toNat ≤ va.1.toNat ∧ va.2.logLevel.toNat ≤ LogLevel.ERROR.toNat then
      (false, va.2)
    else (true, va.2)

/-! ### The earlier revision's parse pipeline -/

/-- The flat JSON loader Config::json of the earlier revision: iterate
the top-level object's fields only; registered keys are coerced by
declared type when compatible (silently skipped otherwise),
unregistered keys store the scalar as-is; nested objects and arrays
are skipped.  picojson aborts on a non-object document, which the
theorems never exercise; the model leaves the state unchanged there. -/
def ConfigState.jsonLoadA (st : ConfigState) (doc : Json) : ConfigState :=
  match doc with
  | .obj fields =>
    fields.foldl (fun s kv =>
      match s.options.lookup kv.1 with
      | some o =>
        match o.type, kv.2 with
        | .INT, .num q => { s with optionValues := s.optionValues.set kv.1 (MValue.ofInt (ratTrunc q)) }
        | .NUMBER, .num q => { s with optionValues := s.optionValues.set kv.1 (MValue.ofNum q) }
        | .BOOL, .bool b => { s with optionValues := s.optionValues.set kv.1 (MValue.ofBool b) }
        | .STRING, .str sv => { s with optionValues := s.optionValues.set kv.1 (MValue.ofStr sv) }
        | _, _ => s
      | none =>
        match kv.2 with
        | .num q => { s with optionValues := s.optionValues.set kv.1 (MValue.ofNum q) }
        | .bool b => { s with optionValues := s.optionValues.set kv.1 (MValue.ofBool b) }
        | .str sv => { s with optionValues := s.optionValues.set kv.1 (MValue.ofStr sv) }
        | _ => s) st
  | _ => st

/-- Config::config of the earlier revision: json/JSON extensions (and
unknown extensions) dispatch to the flat JSON loader; the csv branch
(whose source tests "csv" twice, so uppercase CSV falls through to the
JSON loader) and the yaml branches are empty in the source. -/
def ConfigState.configA (files : String → Option Json) (st : ConfigState) (path : String) :
    ConfigState :=
  let doc := (files path).getD .null
  if extOf path = "json" ∨ extOf path = "JSON" then st.jsonLoadA doc
  else if extOf path = "csv" then st
  else if extOf path = "yaml" ∨ extOf path = "YAML" ∨ extOf path = "yml" ∨ extOf path = "YML" then st
  else st.jsonLoadA doc

/-- The config-file pre-scan of the earlier revision's parse (same
token logic, dispatching to the earlier loader). -/
def prescanConfigA (files : String → Option Json) (st : ConfigState) :
    List String → ConfigState
  | a :: b :: rest =>
    let st' :=
      if (a = "--config" ∨ a = "-cfg") ∧ getTokenType b = .VALUE then st.configA files b
      else st
    prescanConfigA files st' (b :: rest)
  | _ => st

/-- Config::parse of the earlier revision: same pre-scan and token
loop, then the special case "if only two arguments are provided, load
the second as a config file", then the explicit erasure of the help
and config entries, then the earlier validate. -/
def Config.parseA (files : String → Option Json) (argv : List String) (st : ConfigState) :
    Bool × ConfigState :=
  let cf := st.checkFormat
  if LogLevel.ERROR.toNat ≤ cf.1.toNat ∧ cf.2.logLevel.toNat ≤ LogLevel.ERROR.toNat then
    (false, cf.2)
  else
    let st2 := cf.2.setDefaultValues
    let st3 := if st2.loadConfig then prescanConfigA files st2 argv.tail else st2
    let st4 := (argv.tail.foldl scanStep (none, st3)).2
    let st5 := if argv.length = 2 then st4.configA files (argv.tail.headD "") else st4
    let st6 := { st5 with optionValues := (st5.optionValues.erase "help").erase "config" }
    let va := st6.validateA
    if LogLevel.ERROR.toNat ≤ va.1.toNat ∧ va.2.logLevel.toNat ≤ LogLevel.ERROR.toNat then
      (false, va.2)
    else (true, va.2)

/-! ### The nesting serializer (unflatten): JSON branch of Config::serialize -/

/-- The dot tokenizer of Config::serialize, mirroring the
`std::getline(ss, token, '.')` loop: the empty string yields one empty
token, a trailing '.' yields a trailing empty token. -/
def splitDotsChars : List Char → List (List Char)
  | [] => [[]]
  | c :: rest =>
    if c = '.' then [] :: splitDotsChars rest
    else
      match splitDotsChars rest with
      | t :: ts => (c :: t) :: ts
      | [] => [[c]]

/-- flagTokens of Config::serialize for one dotted key. -/
def flagTokens (s : String) : List String :=
  (splitDotsChars s.data).map String.mk

/-- The typed leaf written by Config::serialize for one resolved
value: INT stores the payload cast to double, NUMBER/BOOL/STRING store
the payload directly; a value whose tag has no branch in the source
(UNKNOWN) writes nothing.  The source reads the payload through the
accessor matching the tag, so only tag-consistent payloads are
meaningful. -/
def jsonLeaf (v : MValue) : Option Json :=
  match v.typ, v.data with
  | .INT, some (.pInt i) => some (.num (i : Rat))
  | .NUMBER, some (.pNum q) => some (.num q)
  | .BOOL, some (.pBool b) => some (.bool b)
  | .STRING, some (.pStr s) => some (.str s)
  | _, _ => none

/-- The multi-token navigation of Config::serialize: walk the token
path, creating missing intermediate objects, and write the leaf at the
last token (overwriting).  Descending into a non-object (picojson
`get<picojson::object>()` on a scalar) is a failure, modelled by
`none`.  A `none` leaf models the source's missing branch for an
UNKNOWN-tagged value: the navigation still happens but nothing is
written at the last token. -/
def navInsert : List (String × Json) → List String → Option Json → Option (List (String × Json))
  | node, [t], leaf =>
    some (match leaf with
          | some l => Smap.set node t l
          | none => node)
  | node, t :: rest, leaf =>
    match (Smap.lookup node t).getD (.obj []) with
    | .obj cm =>
      match navInsert cm rest leaf with
      | some cm' => some (Smap.set node t (.obj cm'))
      | none => none
    | _ => none
  | _, [], _ => none

/-- One step of the serializing fold: process a single resolved entry
into the picojson object under construction.  A single-token key is
inserted at top level only when absent; a multi-token key navigates
and overwrites. -/
def serStep (acc : Option (List (String × Json))) (kv : String × MValue) :
    Option (List (String × Json)) :=
  match acc with
  | none => none
  | some root =>
    let toks := flagTokens kv.1
    if 1 < toks.length then navInsert root toks (jsonLeaf kv.2)
    else
      match Smap.lookup root (toks.headD "") with
      | some _ => some root
      | none =>
        match jsonLeaf kv.2 with
        | some l => some (Smap.set root (toks.headD "") l)
        | none => some root

/-- The JSON branch of Config::serialize: fold the resolved map into a
nested picojson object.  (The string rendering and file writing of
serialize are presentation and are not modelled.) -/
def serializeJSONObj (vals : Smap MValue) : Option (List (String × Json)) :=
  vals.foldl serStep (some [])

/-! ### Proof-support definitions for the round-trip claim -/

/-- Join dot-separated segments back together, the inverse of
`splitDotsChars`. -/
def joinDotsChars : List (List Char) → List Char
  | [] => []
  | [x] => x
  | x :: xs => x ++ '.' :: joinDotsChars xs

/-- Join string segments with dots, the inverse of `flagTokens`. -/
def joinPath : List String → String
  | [] => ""
  | [x] => x
  | x :: xs => x ++ "." ++ joinPath xs

/-- Boolean prefix test on token paths. -/
def listPfx : List String → List String → Bool
  | [], _ => true
  | _ :: _, [] => false
  | a :: as, b :: bs => a == b && listPfx as bs

/-- The scalar Values that a JSON document can carry losslessly: a
NUMBER, BOOL or STRING Value with the matching payload and allocation
size produced by the corresponding constructor. -/
def isJsonScalarMV (v : MValue) : Bool :=
  match v.data with
  | some (.pNum q) => v == MValue.ofNum q
  | some (.pBool b) => v == MValue.ofBool b
  | some (.pStr s) => v == MValue.ofStr s
  | _ => false

/-- The Value stored by the stray branch of getJSONValue for a scalar
document node. -/
def scalarMV : Json → Option MValue
  | .num q => some (MValue.ofNum q)
  | .bool b => some (MValue.ofBool b)
  | .str s => some (MValue.ofStr s)
  | _ => none

mutual
/-- Leaf enumeration of a document: the (token path, stored Value)
pairs its flattening writes, in depth-first order. -/
def leafEntries : Json → List (List String × MValue)
  | .num q => [([], MValue.ofNum q)]
  | .bool b => [([], MValue.ofBool b)]
  | .str s => [([], MValue.ofStr s)]
  | .obj fields => leafEntriesL fields
  | .arr _ => []
  | .null => []

/-- Leaf enumeration of an object's field list. -/
def leafEntriesL : List (String × Json) → List (List String × MValue)
  | [] => []
  | (k, c) :: rest =>
    (leafEntries c).map (fun pv => (k :: pv.1, pv.2)) ++ leafEntriesL rest
end

mutual
/-- Well-formedness of the picojson trees built by the serializer:
objects are nonempty and sorted, every node is a scalar or an
object. -/
inductive CleanJ : Json → Prop where
  | num (q : Rat) : CleanJ (.num q)
  | bool (b : Bool) : CleanJ (.bool b)
  | str (s : String) : CleanJ (.str s)
  | obj (fields : List (String × Json)) (hne : fields ≠ [])
      (hsort : SortedSmap fields) (hch : CleanL fields) : CleanJ (.obj fields)

/-- Well-formedness of a field list. -/
inductive CleanL : List (String × Json) → Prop where
  | nil : CleanL []
  | cons (k : String) (c : Json) (rest : List (String × Json))
      (hc : CleanJ c) (hrest : CleanL rest) : CleanL ((k, c) :: rest)
end

/-- Apply a list of flattened leaf entries to a resolved map, exactly
as the flattening loader writes them: each path is joined onto the
current flag prefix and assigned. -/
def applyEntries (m : Smap MValue) (flag : String) :
    List (List String × MValue) → Smap MValue
  | [] => m
  | (p, v) :: rest => applyEntries (m.set (p.foldl flagJoin flag) v) flag rest

/-! ### Concrete registries and states used by the claims -/

/-- The hidden help option injected by Config::enableHelp of the
current revision. -/
def helpOpt : Opt :=
  ⟨"help", "h", "Display the help message", MValue.ofBool false, false, true⟩

/-- The hidden config option injected by Config::enableConfig of the
current revision. -/
def configOpt : Opt :=
  ⟨"config", "cfg", "Input configuration file (JSON/CSV)", MValue.ofStr "", false, true⟩

/-- The help option of the earlier revision (no hidden field in that
revision's Option class). -/
def helpOptA : Opt :=
  ⟨"help", "h", "Display the help message", MValue.ofBool false, false, false⟩

/-- The config option of the earlier revision. -/
def configOptA : Opt :=
  ⟨"config", "cfg",
   "Load the config file. Config format is determined by the file's extenion. If no file extension is found, default JSON loader is used",
   MValue.ofStr "", false, false⟩

/-- A freshly constructed Config of the current revision (log level
WARNING, help and config injected, empty description) extended with
the given application options. -/
def initState (extra : Smap Opt) : ConfigState :=
  { options := extra.foldl (fun m kv => m.set kv.1 kv.2) [("config", configOpt), ("help", helpOpt)]
    optionValues := []
    log := []
    logLevel := .WARNING
    description := ""
    autoHelp := true
    loadConfig := true }

/-- The Number option `n` with default 1.0 used by the precedence
claim: `option("n").shortflag("num").defaultValue(1.0).description(...)`. -/
def nOpt : Opt := ⟨"n", "num", "a number option", MValue.ofNum 1, false, false⟩

/-- Registry for the precedence claim: help, config and `n`. -/
def precState : ConfigState := initState [("n", nOpt)]

/-- File oracle for the precedence claim: `f.json` holds the document
setting `n` to 2.0. -/
def precFiles : String → Option Json :=
  fun p => if p = "f.json" then some (.obj [("n", .num 2)]) else none

/-- The required Text-declared option `s` of the validation claim:
required with no default value supplied (the only way no source
supplies a value, since a default value would itself supply one; with
no default the declared type defaults to UNKNOWN). -/
def sOpt : Opt := ⟨"s", "sf", "a required option", MValue.empty, true, false⟩

/-- Registry for the validation claim, parameterized by the configured
log threshold. -/
def reqState (lv : LogLevel) : ConfigState :=
  { initState [("s", sOpt)] with logLevel := lv }

/-- Two options sharing the shortflag "x", for the duplicate-shortflag
witness. -/
def dupOpt1 : Opt := ⟨"alpha", "x", "first", MValue.ofInt 0, false, false⟩

/-- Second option with the duplicated shortflag. -/
def dupOpt2 : Opt := ⟨"beta", "x", "second", MValue.ofInt 1, false, false⟩

/-- Registry with duplicate shortflags, parameterized by log level. -/
def dupState (lv : LogLevel) : ConfigState :=
  { initState [("alpha", dupOpt1), ("beta", dupOpt2)] with logLevel := lv }

/-- A freshly constructed Config of the earlier revision extended with
the `n` option, for the sole-positional-argument claim. -/
def soleState : ConfigState :=
  { options := [("config", configOptA), ("help", helpOptA), ("n", nOpt)]
    optionValues := []
    log := []
    logLevel := .WARNING
    description := ""
    autoHelp := true
    loadConfig := true }

/-- An option-free state over which the abstract flatten/unflatten
round trip is stated (no registered options, so the loader's stray
branch stores document scalars unchanged). -/
def bareState : ConfigState :=
  { options := []
    optionValues := []
    log := []
    logLevel := .WARNING
    description := ""
    autoHelp := true
    loadConfig := true }

/-! ## Theorems -/

/-! ### Basic order and map lemmas -/

theorem charListLt_irrefl (l : List Char) : charListLt l l = false := by
  induction l with
  | nil => rfl
  | cons c t ih => simp [charListLt, ih]

theorem strLt_irrefl (s : String) : strLt s s = false := by
  simp [strLt, charListLt_irrefl]

theorem Smap.lookup_set_self {α : Type} (m : Smap α) (k : String) (v : α) :
    (m.set k v).lookup k = some v := by
  induction m with
  | nil => simp [Smap.set, Smap.lookup]
  | cons kv t ih =>
    obtain ⟨k', v'⟩ := kv
    by_cases h1 : strLt k k'
    · simp [Smap.set, h1, Smap.lookup]
    · by_cases h2 : k = k'
      · subst h2
        simp [Smap.set, h1, Smap.lookup, strLt_irrefl]
      · simp [Smap.set, h1, h2, Smap.lookup, ih]

theorem Smap.lookup_set_ne {α : Type} (m : Smap α) (k k0 : String) (v : α) (h : k0 ≠ k) :
    (m.set k v).lookup k0 = m.lookup k0 := by
  induction m with
  | nil => simp [Smap.set, Smap.lookup, h]
  | cons kv t ih =>
    obtain ⟨k', v'⟩ := kv
    by_cases h1 : strLt k k'
    · simp [Smap.set, h1, Smap.lookup, h]
    · by_cases h2 : k = k'
      · subst h2
        simp [Smap.set, h1, Smap.lookup, h]
      · by_cases h3 : k0 = k'
        · simp [Smap.set, h1, h2, Smap.lookup, h3]
        · simp [Smap.set, h1, h2, Smap.lookup, h3, ih]

theorem Smap.lookup_erase_ne {α : Type} (m : Smap α) (k k0 : String) (h : k0 ≠ k) :
    (m.erase k).lookup k0 = m.lookup k0 := by
  induction m with
  | nil => simp [Smap.erase, Smap.lookup]
  | cons kv t ih =>
    obtain ⟨k', v'⟩ := kv
    by_cases h1 : k = k'
    · subst h1
      simp [Smap.erase, Smap.lookup, h]
    · by_cases h2 : k0 = k'
      · simp [Smap.erase, h1, Smap.lookup, h2]
      · simp [Smap.erase, h1, Smap.lookup, h2, ih]

/-! ### State-component preservation lemmas -/

theorem logMsg_optionValues (st : ConfigState) (lv : LogLevel) (a b : String) :
    (st.logMsg lv a b).optionValues = st.optionValues := by
  simp only [ConfigState.logMsg]; split <;> rfl

theorem logMsg_options (st : ConfigState) (lv : LogLevel) (a b : String) :
    (st.logMsg lv a b).options = st.options := by
  simp only [ConfigState.logMsg]; split <;> rfl

theorem logMsg_logLevel (st : ConfigState) (lv : LogLevel) (a b : String) :
    (st.logMsg lv a b).logLevel = st.logLevel := by
  simp only [ConfigState.logMsg]; split <;> rfl

theorem logMsg_loadConfig (st : ConfigState) (lv : LogLevel) (a b : String) :
    (st.logMsg lv a b).loadConfig = st.loadConfig := by
  simp only [ConfigState.logMsg]; split <;> rfl

theorem logMsg_description (st : ConfigState) (lv : LogLevel) (a b : String) :
    (st.logMsg lv a b).description = st.description := by
  simp only [ConfigState.logMsg]; split <;> rfl

/-! ### Claim C9: Value copy and move -/

/-- Claim C9: copying a Value preserves the type tag and the payload
(both for copy construction and copy assignment), and moving a Value
(by move construction or move assignment) transfers the type and
payload to the destination and leaves the source empty, with
`isEmpty()` true on the moved-from Value. -/
theorem C9_value_copy_move (v dst : MValue) :
    (MValue.copyCtor v).typ = v.typ ∧ (MValue.copyCtor v).data = v.data ∧
    (MValue.copyAssign dst v).typ = v.typ ∧ (MValue.copyAssign dst v).data = v.data ∧
    (MValue.moveCtor v).1.typ = v.typ ∧ (MValue.moveCtor v).1.data = v.data ∧
    (MValue.moveCtor v).2.isEmpty = true ∧
    (MValue.moveAssign dst v).1.typ = v.typ ∧ (MValue.moveAssign dst v).1.data = v.data ∧
    (MValue.moveAssign dst v).2.isEmpty = true := by
  simp [MValue.copyCtor, MValue.copyAssign, MValue.moveCtor, MValue.moveAssign,
    MValue.moveDataFrom, MValue.isEmpty, MValue.empty]

/-! ### Claim C10: operator[] inserts a missing key -/

/-- Claim C10: reading a missing key through Config::operator[] (a
std::map operator[]) inserts a fresh empty Unknown-tagged Value under
that key and returns it, so contains(k) becomes true — the query
mutates the resolved map. -/
theorem C10_bracket_inserts (st : ConfigState) (k : String)
    (h : st.optionValues.lookup k = none) :
    st.containsVal k = false ∧
    (st.bracket k).1 = MValue.empty ∧
    (st.bracket k).1.isEmpty = true ∧
    (st.bracket k).2.containsVal k = true ∧
    (st.bracket k).2.optionValues = st.optionValues.set k MValue.empty := by
  refine ⟨?_, ?_, ?_, ?_, ?_⟩ <;>
    simp [ConfigState.containsVal, ConfigState.bracket, Smap.containsKey, h,
      Smap.lookup_set_self, MValue.isEmpty, MValue.empty]

/-- Witness for C10 at a concrete state and key. -/
theorem C10_bracket_inserts_witness :
    bareState.optionValues.lookup "x" = none ∧
    (bareState.containsVal "x" = false ∧
     (bareState.bracket "x").1 = MValue.empty ∧
     (bareState.bracket "x").1.isEmpty = true ∧
     (bareState.bracket "x").2.containsVal "x" = true ∧
     (bareState.bracket "x").2.optionValues = bareState.optionValues.set "x" MValue.empty) :=
  ⟨by decide, C10_bracket_inserts bareState "x" (by decide)⟩

/-! ### Claim C3: Bool token parsing -/

/-- Counterexample to claim C3 as stated: the token "fAlse" is
case-insensitively equal to "false", yet parseValue parses it to the
boolean true, because the code compares against the five exact
literals "false", "False", "FALSE", "F", "f" rather than
case-insensitively. -/
theorem C3_counterexample :
    ciEq "fAlse" "false" = true ∧
    parseValue "fAlse" .BOOL = MValue.ofBool true ∧
    MValue.ofBool true ≠ MValue.ofBool false := by decide

/-- Claim C3 (amended): parsing a token against a declared Bool type
compares against the five exact literals "false", "False", "FALSE",
"F", "f": exactly those parse to false, and every other token —
including "0" and "no" — parses to true. -/
theorem C3_bool_parsing_amended (t : String) :
    (parseValue t .BOOL = MValue.ofBool false ↔
      (t = "false" ∨ t = "False" ∨ t = "FALSE" ∨ t = "F" ∨ t = "f")) ∧
    (parseValue t .BOOL = MValue.ofBool true ↔
      ¬(t = "false" ∨ t = "False" ∨ t = "FALSE" ∨ t = "F" ∨ t = "f")) := by
  by_cases hc : t = "false" ∨ t = "False" ∨ t = "FALSE" ∨ t = "F" ∨ t = "f" <;>
    simp [parseValue, hc, MValue.ofBool]

/-! ### Claim C5: frame property of Value tokens in the scan -/

/-- Claim C5: during the command-line scan, a token classified as
VALUE never corrupts the resolved map on failure: with a pending
option whose type the token fails to parse against, a Warning is
emitted (subject to the log threshold, as every log record is) and the
resolved map is unchanged; with no pending option, a Warning is
emitted and the token is discarded with the resolved map unchanged. -/
theorem C5_value_token_frame (o : Opt) (st : ConfigState) (token : String)
    (hv : getTokenType token = .VALUE) :
    ((parseValue token o.type).isEmpty = true →
      (scanStep (some o, st) token).2.optionValues = st.optionValues ∧
      (scanStep (some o, st) token).2 =
        st.logMsg .WARNING token "unvalid value type is provided" ∧
      (scanStep (some o, st) token).1 = none) ∧
    ((scanStep (none, st) token).2.optionValues = st.optionValues ∧
     (scanStep (none, st) token).2 =
       st.logMsg .WARNING token "unassociated argument is not stored" ∧
     (scanStep (none, st) token).1 = none) := by
  constructor
  · intro hfail
    refine ⟨?_, ?_, ?_⟩ <;> simp [scanStep, hv, hfail, logMsg_optionValues]
  · refine ⟨?_, ?_, ?_⟩ <;> simp [scanStep, hv, logMsg_optionValues]

/-- Witness for C5: the token "xy" classifies as a VALUE and fails to
parse against the INT-typed option `alpha`. -/
theorem C5_value_token_frame_witness :
    getTokenType "xy" = .VALUE ∧
    (parseValue "xy" dupOpt1.type).isEmpty = true ∧
    (scanStep (some dupOpt1, bareState) "xy").2.optionValues = bareState.optionValues ∧
    (scanStep (none, bareState) "xy").2.optionValues = bareState.optionValues :=
  ⟨by decide, by decide,
   ((C5_value_token_frame dupOpt1 bareState "xy" (by decide)).1 (by decide)).1,
   (C5_value_token_frame dupOpt1 bareState "xy" (by decide)).2.1⟩

/-! ### Claim C1: precedence of command line over file over defaults -/

/-- Claim C1: for the Number option `n` with default 1.0, a config
document supplying 2.0 and the command line supplying `--n 3.0`
resolve `n` to 3.0; the document alone resolves it to 2.0; neither
source resolves it to the default 1.0 — command line overwrites file,
which overwrites defaults. -/
theorem C1_precedence :
    ((Config.parse precFiles ["prog", "--config", "f.json", "--n", "3.0"]
        precState).2.optionValues).lookup "n" = some (MValue.ofNum 3) ∧
    ((Config.parse precFiles ["prog", "--config", "f.json"]
        precState).2.optionValues).lookup "n" = some (MValue.ofNum 2) ∧
    ((Config.parse precFiles ["prog"]
        precState).2.optionValues).lookup "n" = some (MValue.ofNum 1) := by
  decide

/-! ### Claim C2: the token classifier -/

/-- Claim C2: the token classifier satisfies, for every token: the
empty token is UNKNOWN; a token beginning with '-' that strtod parses
fully as a numeric literal is a VALUE; otherwise a token beginning
with "--" is a FLAG whose key is the text after the two-character
prefix; otherwise a token beginning with '-' is a SHORTFLAG whose key
is the text after the one-character prefix (here before shortflag
alias translation, i.e. over the empty registry); and every token not
beginning with '-' is a VALUE. -/
theorem getTokenType_dash_val (t : String) (cs : List Char) (hd : t.data = '-' :: cs)
    (hfull : strtodWholeToken t = true) : getTokenType t = .VALUE := by
  rw [strtodWholeToken, hd] at hfull
  simp [getTokenType, hd]
  cases hsc : scanDouble ('-' :: cs) with
  | none => rw [hsc] at hfull; simp at hfull
  | some p =>
    obtain ⟨q, rest⟩ := p
    cases rest with
    | nil => simp
    | cons c r => rw [hsc] at hfull; simp at hfull

theorem getTokenType_dash_flag (t : String) (cs : List Char) (hd : t.data = '-' :: '-' :: cs)
    (hfull : strtodWholeToken t = false) : getTokenType t = .FLAG := by
  rw [strtodWholeToken, hd] at hfull
  simp [getTokenType, hd]
  cases hsc : scanDouble ('-' :: '-' :: cs) with
  | none => simp
  | some p =>
    obtain ⟨q, rest⟩ := p
    cases rest with
    | nil => rw [hsc] at hfull; simp at hfull
    | cons c r => simp

theorem getTokenType_single_dash (t : String) (hd : t.data = ['-'])
    (hfull : strtodWholeToken t = false) : getTokenType t = .SHORTFLAG := by
  rw [strtodWholeToken, hd] at hfull
  simp [getTokenType, hd]
  cases hsc : scanDouble ['-'] with
  | none => simp
  | some p =>
    obtain ⟨q, rest⟩ := p
    cases rest with
    | nil => rw [hsc] at hfull; simp at hfull
    | cons c r => simp

theorem getTokenType_dash_short (t : String) (c : Char) (cs : List Char)
    (hd : t.data = '-' :: c :: cs) (hc : c ≠ '-')
    (hfull : strtodWholeToken t = false) : getTokenType t = .SHORTFLAG := by
  rw [strtodWholeToken, hd] at hfull
  simp [getTokenType, hd]
  cases hsc : scanDouble ('-' :: c :: cs) with
  | none =>
    split
    · next heq => simp at heq
    · split
      · next heq => exact absurd (List.head_eq_of_cons_eq heq) hc
      · rfl
  | some p =>
    obtain ⟨q, rest⟩ := p
    cases rest with
    | nil => rw [hsc] at hfull; simp at hfull
    | cons c' r =>
      split
      · next heq => simp at heq
      · split
        · next heq => exact absurd (List.head_eq_of_cons_eq heq) hc
        · rfl

theorem C2_token_classifier (t : String) :
    (t = "" → getTokenType t = .UNKNOWN) ∧
    ((∃ cs, t.data = '-' :: cs) → strtodWholeToken t = true → getTokenType t = .VALUE) ∧
    ((∃ cs, t.data = '-' :: '-' :: cs) → strtodWholeToken t = false →
      getTokenType t = .FLAG ∧ getOptionKey [] t .FLAG = t.drop 2) ∧
    (((∃ c cs, t.data = '-' :: c :: cs ∧ c ≠ '-') ∨ t.data = ['-']) → strtodWholeToken t = false →
      getTokenType t = .SHORTFLAG ∧ getOptionKey [] t .SHORTFLAG = t.drop 1) ∧
    (t ≠ "" → (∀ cs, t.data ≠ '-' :: cs) → getTokenType t = .VALUE) := by
  refine ⟨?_, ?_, ?_, ?_, ?_⟩
  · intro h
    subst h
    rfl
  · rintro ⟨cs, hd⟩ hfull
    exact getTokenType_dash_val t cs hd hfull
  · rintro ⟨cs, hd⟩ hfull
    exact ⟨getTokenType_dash_flag t cs hd hfull, by simp [getOptionKey]⟩
  · rintro (⟨c, cs, hd, hc⟩ | hd) hfull
    · exact ⟨getTokenType_dash_short t c cs hd hc hfull,
        by simp [getOptionKey, translateShortflag]⟩
    · exact ⟨getTokenType_single_dash t hd hfull,
        by simp [getOptionKey, translateShortflag]⟩
  · intro hne hnd
    have hd : t.data ≠ [] := by
      intro h
      exact hne (by cases t; simp_all)
    match ht : t.data with
    | [] => exact absurd ht hd
    | c :: cs =>
      have hcne : c ≠ '-' := by
        intro h
        subst h
        exact hnd cs ht
      simp [getTokenType, ht, hcne]

/-- Witness for C2 at the classifier examples from the specification:
"-3.14" is a VALUE, "--foo" is a FLAG with key "foo", "-f" is a
SHORTFLAG with key "f", "" is UNKNOWN, and "bar" is a VALUE. -/
theorem C2_token_classifier_witness :
    getTokenType "-3.14" = .VALUE ∧
    (getTokenType "--foo" = .FLAG ∧ getOptionKey [] "--foo" .FLAG = "foo") ∧
    (getTokenType "-f" = .SHORTFLAG ∧ getOptionKey [] "-f" .SHORTFLAG = "f") ∧
    getTokenType "" = .UNKNOWN ∧
    getTokenType "bar" = .VALUE :=
  ⟨(C2_token_classifier "-3.14").2.1 ⟨['3', '.', '1', '4'], rfl⟩ (by decide),
   (C2_token_classifier "--foo").2.2.1 ⟨['f', 'o', 'o'], rfl⟩ (by decide),
   (C2_token_classifier "-f").2.2.2.1 (Or.inl ⟨'f', [], rfl, by decide⟩) (by decide),
   (C2_token_classifier "").1 rfl,
   (C2_token_classifier "bar").2.2.2.2 (by decide) (fun cs h => by simp at h)⟩

/-! ### Generic fold invariants -/

theorem foldl_inv {α β : Type} (P : α → Prop) (f : α → β → α)
    (hstep : ∀ acc x, P acc → P (f acc x)) :
    ∀ (l : List β) (a : α), P a → P (l.foldl f a) := by
  intro l
  induction l with
  | nil => exact fun a h => h
  | cons x t ih => exact fun a h => ih _ (hstep a x h)

theorem foldl_split_of_mem {α β : Type} (f : α → β → α) (l : List β) (x : β) (hx : x ∈ l) :
    ∃ (l1 l2 : List β), ∀ a, l.foldl f a = l2.foldl f (f (l1.foldl f a) x) := by
  obtain ⟨l1, l2, heq⟩ := List.append_of_mem hx
  refine ⟨l1, l2, fun a => ?_⟩
  rw [heq, List.foldl_append, List.foldl_cons]

/-! ### Log-level arithmetic -/

theorem worseLevel_toNat (a b : LogLevel) :
    (worseLevel a b).toNat = max a.toNat b.toNat := by
  unfold worseLevel
  split <;> omega

theorem toNat_eq_two (lv : LogLevel) (h : lv.toNat = 2) : lv = .ERROR := by
  cases lv <;> simp [LogLevel.toNat] at h ⊢

/-! ### Preservation lemmas for the parse pipeline -/

theorem getJSONValue_logLevel (st : ConfigState) (v : Json) (flag : String) :
    (st.getJSONValue v flag).2.logLevel = st.logLevel := by
  cases hv : st.options.lookup flag with
  | some opt =>
    simp only [ConfigState.getJSONValue, hv]
    cases ho : opt.type <;> cases v <;> simp [logMsg_logLevel]
  | none =>
    simp only [ConfigState.getJSONValue, hv]
    cases v <;> simp [logMsg_logLevel]

mutual
theorem parseJSONv_logLevel : ∀ (v : Json) (flag : String) (st : ConfigState),
    (parseJSONv v flag st).2.logLevel = st.logLevel
  | .num q, flag, st => getJSONValue_logLevel st (.num q) flag
  | .bool b, flag, st => getJSONValue_logLevel st (.bool b) flag
  | .str s, flag, st => getJSONValue_logLevel st (.str s) flag
  | .obj fields, flag, st => parseJSONfields_logLevel fields flag st
  | .arr _, _, _ => rfl
  | .null, flag, st => logMsg_logLevel st .WARNING flag _

theorem parseJSONfields_logLevel :
    ∀ (l : List (String × Json)) (flag : String) (st : ConfigState),
    (parseJSONfields l flag st).2.logLevel = st.logLevel
  | [], _, _ => rfl
  | (key, item) :: rest, flag, st => by
    rw [parseJSONfields]
    split
    · rw [parseJSONfields_logLevel rest flag _, parseJSONv_logLevel item _ st]
    · rw [parseJSONv_logLevel item _ st]
end

theorem configLoad_logLevel (files : String → Option Json) (st : ConfigState) (p : String) :
    (st.configLoad files p).logLevel = st.logLevel := by
  rw [ConfigState.configLoad]
  split
  · rfl
  · exact parseJSONv_logLevel _ "" st

theorem prescanConfig_logLevel (files : String → Option Json) :
    ∀ (l : List String) (st : ConfigState),
    (prescanConfig files st l).logLevel = st.logLevel
  | a :: b :: rest, st => by
    rw [prescanConfig, prescanConfig_logLevel files (b :: rest)]
    split
    · exact configLoad_logLevel files st b
    · rfl
  | [], _ => rfl
  | [a], _ => rfl

theorem scanStep_logLevel (acc : Option Opt × ConfigState) (token : String) :
    (scanStep acc token).2.logLevel = acc.2.logLevel := by
  obtain ⟨cur, st⟩ := acc
  simp only [scanStep]
  cases getTokenType token with
  | UNKNOWN => simp [logMsg_logLevel]
  | VALUE =>
    cases cur with
    | none => simp [logMsg_logLevel]
    | some o =>
      by_cases h : (parseValue token o.type).isEmpty = true <;>
        simp [h, logMsg_logLevel]
  | FLAG =>
    cases hgo : getOption st.options token .FLAG with
    | none =>
      by_cases hb : (wildcardOpt (token.drop 2)).type = .BOOL <;>
        simp [hgo, hb, logMsg_logLevel]
    | some o =>
      by_cases hb : o.type = .BOOL <;> simp [hgo, hb, logMsg_logLevel]
  | SHORTFLAG =>
    cases hgo : getOption st.options token .SHORTFLAG with
    | none => simp [hgo, logMsg_logLevel]
    | some o =>
      by_cases hb : o.type = .BOOL <;> simp [hgo, hb, logMsg_logLevel]

theorem dupCheckStep_logLevel (o : Opt) (acc : LogLevel × ConfigState) (kv : String × Opt) :
    (dupCheckStep o acc kv).2.logLevel = acc.2.logLevel := by
  rw [dupCheckStep]
  split <;> simp [logMsg_logLevel]

theorem dupFold_logLevel (o : Opt) (l : Smap Opt) (a : LogLevel × ConfigState) :
    (l.foldl (dupCheckStep o) a).2.logLevel = a.2.logLevel := by
  induction l generalizing a with
  | nil => rfl
  | cons y t ih => rw [List.foldl_cons, ih, dupCheckStep_logLevel]

theorem checkFormatStep_logLevel (allOpts : Smap Opt) (acc : LogLevel × ConfigState)
    (kv : String × Opt) :
    ((checkFormatStep allOpts acc kv).2.logLevel = acc.2.logLevel) := by
  by_cases h1 : kv.2.required = false ∧ kv.2.defaultValue.isEmpty = true <;>
    by_cases h2 : kv.2.description = "" <;>
      by_cases h3 : kv.2.shortflag = "" <;>
        simp [checkFormatStep, h1, h2, h3, dupFold_logLevel, logMsg_logLevel]

theorem checkFormat_logLevel (st : ConfigState) :
    (st.checkFormat).2.logLevel = st.logLevel := by
  rw [ConfigState.checkFormat]
  have hfold : ∀ (l : Smap Opt) (a : LogLevel × ConfigState),
      (l.foldl (checkFormatStep st.options) a).2.logLevel = a.2.logLevel := by
    intro l
    induction l with
    | nil => intro a; rfl
    | cons y t ih =>
      intro a
      rw [List.foldl_cons, ih, checkFormatStep_logLevel]
  split <;> simp [logMsg_logLevel, hfold]

theorem validate_logLevel (st : ConfigState) :
    (st.validate).2.logLevel = st.logLevel := by
  rw [ConfigState.validate]
  have h1 : ∀ (l : Smap Opt) (s : ConfigState) (L : LogLevel),
      s.logLevel = L →
      (l.foldl (fun s kv =>
        if kv.2.hidden ∧ s.optionValues.containsKey kv.1 then
          { s with optionValues := s.optionValues.erase kv.1 }
        else s) s).logLevel = L := by
    intro l
    induction l with
    | nil => intro s L h; exact h
    | cons y t ih =>
      intro s L h
      rw [List.foldl_cons]
      apply ih
      split <;> simp [h]
  have h2 : ∀ (l : Smap MValue) (a : LogLevel × ConfigState) (L : LogLevel),
      a.2.logLevel = L →
      (l.foldl (fun (acc : LogLevel × ConfigState) kv =>
        if kv.2.isEmpty = true then
          (worseLevel acc.1 .ERROR, acc.2.logMsg .ERROR kv.1 "option contains invalid value")
        else acc) a).2.logLevel = L := by
    intro l
    induction l with
    | nil => intro a L h; exact h
    | cons y t ih =>
      intro a L h
      rw [List.foldl_cons]
      apply ih
      split <;> simp [logMsg_logLevel, h]
  have h3 : ∀ (l : Smap Opt) (a : LogLevel × ConfigState) (L : LogLevel),
      a.2.logLevel = L →
      (l.foldl (fun (acc : LogLevel × ConfigState) kv =>
        if ¬acc.2.optionValues.containsKey kv.1 = true ∧ ¬kv.2.hidden = true then
          (worseLevel acc.1 .ERROR, acc.2.logMsg .ERROR kv.1 "option is undefined")
        else acc) a).2.logLevel = L := by
    intro l
    induction l with
    | nil => intro a L h; exact h
    | cons y t ih =>
      intro a L h
      rw [List.foldl_cons]
      apply ih
      split <;> simp [logMsg_logLevel, h]
  exact h3 _ _ _ (h2 _ _ _ (h1 _ _ _ rfl))

theorem setDefaultValues_logLevel (st : ConfigState) :
    (st.setDefaultValues).logLevel = st.logLevel := rfl

theorem scanFold_logLevel (l : List String) (acc : Option Opt × ConfigState) :
    (l.foldl scanStep acc).2.logLevel = acc.2.logLevel := by
  induction l generalizing acc with
  | nil => rfl
  | cons x t ih => rw [List.foldl_cons, ih, scanStep_logLevel]

theorem loadIf_logLevel (files : String → Option Json) (l : List String) (st : ConfigState) :
    (if st.loadConfig then prescanConfig files st l else st).logLevel = st.logLevel := by
  split
  · exact prescanConfig_logLevel files l st
  · rfl

/-! ### Claim C7: duplicate shortflags are a pre-scan format error -/

theorem ite_worse_fst_mono {c : Prop} [Decidable c] (p : LogLevel × ConfigState)
    (lv : LogLevel) (s : ConfigState) :
    p.1.toNat ≤ (if c then (worseLevel p.1 lv, s) else p).1.toNat := by
  split
  · simp only [worseLevel_toNat]
    omega
  · exact Nat.le_refl _

theorem ite_worse_fst_le2 {c : Prop} [Decidable c] (p : LogLevel × ConfigState)
    (lv : LogLevel) (s : ConfigState) (hlv : lv.toNat ≤ 2) (h : p.1.toNat ≤ 2) :
    (if c then (worseLevel p.1 lv, s) else p).1.toNat ≤ 2 := by
  split
  · simp only [worseLevel_toNat]
    omega
  · exact h

theorem dupCheckStep_mono (o : Opt) (acc : LogLevel × ConfigState) (kv : String × Opt) :
    acc.1.toNat ≤ (dupCheckStep o acc kv).1.toNat := by
  rw [dupCheckStep]
  exact ite_worse_fst_mono acc .ERROR _

theorem dupCheckStep_le2 (o : Opt) (acc : LogLevel × ConfigState) (kv : String × Opt)
    (h : acc.1.toNat ≤ 2) : (dupCheckStep o acc kv).1.toNat ≤ 2 := by
  rw [dupCheckStep]
  exact ite_worse_fst_le2 acc .ERROR _ (by decide) h

theorem dupFold_mono (o : Opt) (l : Smap Opt) (a : LogLevel × ConfigState) :
    a.1.toNat ≤ (l.foldl (dupCheckStep o) a).1.toNat := by
  induction l generalizing a with
  | nil => exact Nat.le_refl _
  | cons y t ih =>
    rw [List.foldl_cons]
    exact Nat.le_trans (dupCheckStep_mono o a y) (ih _)

theorem dupFold_le2 (o : Opt) (l : Smap Opt) (a : LogLevel × ConfigState)
    (h : a.1.toNat ≤ 2) : (l.foldl (dupCheckStep o) a).1.toNat ≤ 2 := by
  induction l generalizing a with
  | nil => exact h
  | cons y t ih =>
    rw [List.foldl_cons]
    exact ih _ (dupCheckStep_le2 o a y h)

theorem dupFold_hit (o1 o2 : Opt) (k2 : String) (l : Smap Opt) (a : LogLevel × ConfigState)
    (hmem : (k2, o2) ∈ l) (hf : o1.flag ≠ o2.flag) (hs : o1.shortflag = o2.shortflag)
    (hne : o1.shortflag ≠ "") :
    2 ≤ (l.foldl (dupCheckStep o1) a).1.toNat := by
  obtain ⟨l1, l2, hsplit⟩ := foldl_split_of_mem (dupCheckStep o1) l (k2, o2) hmem
  rw [hsplit a]
  refine Nat.le_trans ?_ (dupFold_mono o1 l2 _)
  rw [dupCheckStep, if_pos ⟨hf, hs, hne⟩]
  simp only [worseLevel_toNat]
  have h2 : LogLevel.ERROR.toNat = 2 := rfl
  omega

theorem checkFormatStep_mono (allOpts : Smap Opt) (acc : LogLevel × ConfigState)
    (kv : String × Opt) : acc.1.toNat ≤ (checkFormatStep allOpts acc kv).1.toNat := by
  simp only [checkFormatStep]
  refine Nat.le_trans ?_ (ite_worse_fst_mono _ .WARNING _)
  refine Nat.le_trans ?_ (ite_worse_fst_mono _ .WARNING _)
  refine Nat.le_trans ?_ (dupFold_mono kv.2 allOpts _)
  exact ite_worse_fst_mono acc .ERROR _

theorem checkFormatStep_le2 (allOpts : Smap Opt) (acc : LogLevel × ConfigState)
    (kv : String × Opt) (h : acc.1.toNat ≤ 2) :
    (checkFormatStep allOpts acc kv).1.toNat ≤ 2 := by
  simp only [checkFormatStep]
  refine ite_worse_fst_le2 _ .WARNING _ (by decide) ?_
  refine ite_worse_fst_le2 _ .WARNING _ (by decide) ?_
  refine dupFold_le2 kv.2 allOpts _ ?_
  exact ite_worse_fst_le2 acc .ERROR _ (by decide) h

theorem checkFormatStep_hit (allOpts : Smap Opt) (acc : LogLevel × ConfigState)
    (k1 k2 : String) (o1 o2 : Opt) (hmem : (k2, o2) ∈ allOpts)
    (hf : o1.flag ≠ o2.flag) (hs : o1.shortflag = o2.shortflag) (hne : o1.shortflag ≠ "") :
    2 ≤ (checkFormatStep allOpts acc (k1, o1)).1.toNat := by
  simp only [checkFormatStep]
  refine Nat.le_trans ?_ (ite_worse_fst_mono _ .WARNING _)
  refine Nat.le_trans ?_ (ite_worse_fst_mono _ .WARNING _)
  exact dupFold_hit o1 o2 k2 allOpts _ hmem hf hs hne

theorem checkFormat_dup_error (st : ConfigState) (k1 k2 : String) (o1 o2 : Opt)
    (h1 : (k1, o1) ∈ st.options) (h2 : (k2, o2) ∈ st.options)
    (hf : o1.flag ≠ o2.flag) (hs : o1.shortflag = o2.shortflag) (hne : o1.shortflag ≠ "") :
    (st.checkFormat).1 = .ERROR := by
  apply toNat_eq_two
  have hub : (st.checkFormat).1.toNat ≤ 2 := by
    rw [ConfigState.checkFormat]
    have hfold : (st.options.foldl (checkFormatStep st.options) (.INFO, st)).1.toNat ≤ 2 :=
      foldl_inv (fun a => a.1.toNat ≤ 2) (checkFormatStep st.options)
        (fun acc x h => checkFormatStep_le2 st.options acc x h) st.options (.INFO, st)
        (by show LogLevel.INFO.toNat ≤ 2; decide)
    exact ite_worse_fst_le2 _ .WARNING _ (by decide) hfold
  have hlb : 2 ≤ (st.checkFormat).1.toNat := by
    rw [ConfigState.checkFormat]
    have hfold : 2 ≤ (st.options.foldl (checkFormatStep st.options) (.INFO, st)).1.toNat := by
      obtain ⟨l1, l2, hsplit⟩ :=
        foldl_split_of_mem (checkFormatStep st.options) st.options (k1, o1) h1
      rw [hsplit _]
      exact foldl_inv (fun a => 2 ≤ a.1.toNat) (checkFormatStep st.options)
        (fun acc x h => Nat.le_trans h (checkFormatStep_mono st.options acc x)) l2 _
        (checkFormatStep_hit st.options _ k1 k2 o1 o2 h2 hf hs hne)
    exact Nat.le_trans hfold (ite_worse_fst_mono _ .WARNING _)
  omega

theorem parse_none_true (files : String → Option Json) (argv : List String)
    (st : ConfigState) (h : st.logLevel = .NONE) :
    (Config.parse files argv st).1 = true := by
  simp only [Config.parse]
  rw [if_neg, if_neg]
  · intro hcon
    rcases hcon with ⟨_, hlev⟩
    rw [validate_logLevel, scanFold_logLevel, loadIf_logLevel, setDefaultValues_logLevel,
      checkFormat_logLevel, h] at hlev
    simp [LogLevel.toNat] at hlev
  · intro hcon
    rcases hcon with ⟨_, hlev⟩
    rw [checkFormat_logLevel, h] at hlev
    simp [LogLevel.toNat] at hlev

/-- Claim C7: two distinct registered options with the same non-empty
shortflag make the pre-scan checkFormat report severity ERROR, parse
aborts with overall failure for every log threshold at or below ERROR
(before any token is read — for every token stream), and under the
suppress-all threshold NONE parse never aborts and returns true. -/
theorem C7_duplicate_shortflag (st : ConfigState) (k1 k2 : String) (o1 o2 : Opt)
    (h1 : (k1, o1) ∈ st.options) (h2 : (k2, o2) ∈ st.options)
    (hf : o1.flag ≠ o2.flag) (hs : o1.shortflag = o2.shortflag) (hne : o1.shortflag ≠ "") :
    (st.checkFormat).1 = .ERROR ∧
    (st.logLevel.toNat ≤ LogLevel.ERROR.toNat →
      ∀ (files : String → Option Json) (argv : List String),
        (Config.parse files argv st).1 = false) ∧
    (st.logLevel = .NONE →
      ∀ (files : String → Option Json) (argv : List String),
        (Config.parse files argv st).1 = true) := by
  have herr := checkFormat_dup_error st k1 k2 o1 o2 h1 h2 hf hs hne
  refine ⟨herr, ?_, ?_⟩
  · intro hlv files argv
    simp only [Config.parse]
    rw [if_pos ⟨by simp [herr], by rw [checkFormat_logLevel]; exact hlv⟩]
  · intro hnone files argv
    exact parse_none_true files argv st hnone

/-- Witness for C7 with the concrete duplicate-shortflag registry, at
the default WARNING threshold (parse fails) and at NONE (parse
succeeds). -/
theorem C7_duplicate_shortflag_witness :
    (("alpha", dupOpt1) ∈ (dupState .WARNING).options ∧
     ("beta", dupOpt2) ∈ (dupState .WARNING).options ∧
     dupOpt1.flag ≠ dupOpt2.flag ∧ dupOpt1.shortflag = dupOpt2.shortflag ∧
     dupOpt1.shortflag ≠ "") ∧
    ((dupState .WARNING).checkFormat).1 = .ERROR ∧
    (Config.parse (fun _ => none) ["prog"] (dupState .WARNING)).1 = false ∧
    (Config.parse (fun _ => none) ["prog"] (dupState .NONE)).1 = true := by
  have hW := C7_duplicate_shortflag (dupState .WARNING) "alpha" "beta" dupOpt1 dupOpt2
    (by decide) (by decide) (by decide) (by decide) (by decide)
  have hN := C7_duplicate_shortflag (dupState .NONE) "alpha" "beta" dupOpt1 dupOpt2
    (by decide) (by decide) (by decide) (by decide) (by decide)
  exact ⟨⟨by decide, by decide, by decide, by decide, by decide⟩,
    hW.1, hW.2.1 (by decide) _ _, hN.2.2 rfl _ _⟩

/-! ### Claim C8: a sole positional token is loaded as a config file -/

theorem scanStep_options (acc : Option Opt × ConfigState) (token : String) :
    (scanStep acc token).2.options = acc.2.options := by
  obtain ⟨cur, st⟩ := acc
  simp only [scanStep]
  cases getTokenType token with
  | UNKNOWN => simp [logMsg_options]
  | VALUE =>
    cases cur with
    | none => simp [logMsg_options]
    | some o =>
      by_cases h : (parseValue token o.type).isEmpty = true <;>
        simp [h, logMsg_options]
  | FLAG =>
    cases hgo : getOption st.options token .FLAG with
    | none =>
      by_cases hb : (wildcardOpt (token.drop 2)).type = .BOOL <;>
        simp [hgo, hb, logMsg_options]
    | some o =>
      by_cases hb : o.type = .BOOL <;> simp [hgo, hb, logMsg_options]
  | SHORTFLAG =>
    cases hgo : getOption st.options token .SHORTFLAG with
    | none => simp [hgo, logMsg_options]
    | some o =>
      by_cases hb : o.type = .BOOL <;> simp [hgo, hb, logMsg_options]

theorem validateA_optionValues (st : ConfigState) :
    (st.validateA).2.optionValues = st.optionValues := by
  rw [ConfigState.validateA]
  have h1 : ∀ (l : Smap MValue) (a : LogLevel × ConfigState) (V : Smap MValue),
      a.2.optionValues = V →
      (l.foldl (fun (acc : LogLevel × ConfigState) kv =>
        if kv.2.isEmpty = true then
          (worseLevel acc.1 .ERROR, acc.2.logMsg .ERROR kv.1 "option contains invalid value")
        else acc) a).2.optionValues = V := by
    intro l
    induction l with
    | nil => intro a V h; exact h
    | cons y t ih =>
      intro a V h
      rw [List.foldl_cons]
      apply ih
      split <;> simp [logMsg_optionValues, h]
  have h2 : ∀ (l : Smap Opt) (a : LogLevel × ConfigState) (V : Smap MValue),
      a.2.optionValues = V →
      (l.foldl (fun (acc : LogLevel × ConfigState) kv =>
        if ¬acc.2.optionValues.containsKey kv.1 = true then
          (worseLevel acc.1 .ERROR, acc.2.logMsg .ERROR kv.1 "option is undefined")
        else acc) a).2.optionValues = V := by
    intro l
    induction l with
    | nil => intro a V h; exact h
    | cons y t ih =>
      intro a V h
      rw [List.foldl_cons]
      apply ih
      split <;> simp [logMsg_optionValues, h]
  exact h2 _ _ _ (h1 _ _ _ rfl)

theorem ite_pair_snd {c : Prop} [inst : Decidable c] {β γ : Type} (x y : β) (s : γ) :
    (if c then (x, s) else (y, s)).2 = s := by
  split <;> rfl

theorem jsonLoadA_n (st' : ConfigState) (q : Rat) (hopts : st'.options = soleState.options) :
    (st'.jsonLoadA (.obj [("n", .num q)])).optionValues
      = st'.optionValues.set "n" (MValue.ofNum q) := by
  rw [ConfigState.jsonLoadA]
  simp only [List.foldl_cons, List.foldl_nil, hopts]
  rfl

/-- Claim C8: in the revision carrying the sole-positional-argument
special case (`if (argc == 2) config(argv[1])`), whenever exactly one
token besides the program name is supplied — a token which with a
single-token command line can never have been consumed as a flag's
value — the engine treats that token as a config-file path and loads
the file's document into the resolved map: a document setting the
Number option `n` to `q` makes `n` resolve to `q` regardless of how
the token itself classified during the scan.  (The hypotheses keep the
path away from the csv/yaml extensions whose loaders are empty stubs
in that revision.) -/
theorem C8_sole_token_config (files : String → Option Json) (p : String) (q : Rat)
    (hf : files p = some (.obj [("n", .num q)]))
    (hcsv : extOf p ≠ "csv")
    (hyaml : extOf p ≠ "yaml" ∧ extOf p ≠ "YAML" ∧ extOf p ≠ "yml" ∧ extOf p ≠ "YML") :
    ((Config.parseA files ["prog", p] soleState).2.optionValues).lookup "n"
      = some (MValue.ofNum q) := by
  have hcond : ¬(LogLevel.ERROR.toNat ≤ (soleState.checkFormat).1.toNat ∧
      (soleState.checkFormat).2.logLevel.toNat ≤ LogLevel.ERROR.toNat) := by decide
  have hlc : (soleState.checkFormat).2.setDefaultValues.loadConfig = true := by decide
  simp only [Config.parseA, List.tail_cons]
  rw [if_neg hcond, if_pos hlc]
  simp only [prescanConfigA, List.foldl_cons, List.foldl_nil]
  rw [if_pos (by simp : ([ "prog", p ] : List String).length = 2)]
  simp only [List.headD_cons]
  have hopts : (scanStep (none, (soleState.checkFormat).2.setDefaultValues) p).2.options
      = soleState.options := by
    rw [scanStep_options]
    decide
  have hload : ∀ st' : ConfigState, st'.options = soleState.options →
      (st'.configA files p).optionValues
        = st'.optionValues.set "n" (MValue.ofNum q) := by
    intro st' ho
    rw [ConfigState.configA, hf]
    by_cases hj : extOf p = "json" ∨ extOf p = "JSON"
    · rw [if_pos hj]
      exact jsonLoadA_n st' q ho
    · rw [if_neg hj, if_neg hcsv,
        if_neg (by rcases hyaml with ⟨a, b, c, d⟩; simp [a, b, c, d])]
      exact jsonLoadA_n st' q ho
  rw [ite_pair_snd, validateA_optionValues]
  simp only [hload _ hopts]
  rw [Smap.lookup_erase_ne _ _ _ (by decide), Smap.lookup_erase_ne _ _ _ (by decide),
    Smap.lookup_set_self]

/-- Witness for C8 at the concrete path "f.json" and document value
2.0. -/
theorem C8_sole_token_config_witness :
    precFiles "f.json" = some (.obj [("n", .num 2)]) ∧
    extOf "f.json" ≠ "csv" ∧
    ((Config.parseA precFiles ["prog", "f.json"] soleState).2.optionValues).lookup "n"
      = some (MValue.ofNum 2) :=
  ⟨rfl, by decide,
   C8_sole_token_config precFiles "f.json" 2 rfl (by decide)
     ⟨by decide, by decide, by decide, by decide⟩⟩

/-! ### Claim C6: a required option never supplied fails validation -/

/-- Claim C6: with one required option `s` and no source supplying a
value for it (no default value — a default would itself supply one —
no config file and no command-line token), parse fails and the log
holds an Error-severity record whose subject token is `s`, for every
log threshold at or below ERROR. -/
theorem C6_required_missing_fails (lv : LogLevel)
    (h : lv.toNat ≤ LogLevel.ERROR.toNat) :
    (Config.parse (fun _ => none) ["prog"] (reqState lv)).1 = false ∧
    ∃ e ∈ (Config.parse (fun _ => none) ["prog"] (reqState lv)).2.log,
      e.level = .ERROR ∧ e.token = "s" := by
  cases lv with
  | INFO => exact ⟨by decide, by decide⟩
  | WARNING => exact ⟨by decide, by decide⟩
  | ERROR => exact ⟨by decide, by decide⟩
  | NONE => exact absurd h (by decide)

/-- Witness for C6 at the default WARNING threshold. -/
theorem C6_required_missing_fails_witness :
    LogLevel.WARNING.toNat ≤ LogLevel.ERROR.toNat ∧
    (Config.parse (fun _ => none) ["prog"] (reqState .WARNING)).1 = false ∧
    ∃ e ∈ (Config.parse (fun _ => none) ["prog"] (reqState .WARNING)).2.log,
      e.level = .ERROR ∧ e.token = "s" :=
  ⟨by decide, (C6_required_missing_fails .WARNING (by decide)).1,
   (C6_required_missing_fails .WARNING (by decide)).2⟩

/-! ### Order and sorted-map lemmas for the round-trip claim -/

theorem charListLt_cons_iff (a b : Char) (as bs : List Char) :
    charListLt (a :: as) (b :: bs) = true ↔
      (a < b ∨ (a = b ∧ charListLt as bs = true)) := by
  rcases lt_trichotomy a b with h | h | h
  · simp [charListLt, h]
  · subst h
    simp [charListLt, lt_irrefl]
  · simp [charListLt, not_lt_of_gt h, h, ne_of_gt h]

theorem charListLt_trans : ∀ (a b c : List Char),
    charListLt a b = true → charListLt b c = true → charListLt a c = true := by
  intro a
  induction a with
  | nil =>
    intro b c hab hbc
    cases b with
    | nil => simp [charListLt] at hab
    | cons bh bt =>
      cases c with
      | nil => simp [charListLt] at hbc
      | cons ch ct => simp [charListLt]
  | cons ah at' ih =>
    intro b c hab hbc
    cases b with
    | nil => simp [charListLt] at hab
    | cons bh bt =>
      cases c with
      | nil => simp [charListLt] at hbc
      | cons ch ct =>
        rw [charListLt_cons_iff] at hab hbc ⊢
        rcases hab with h1 | ⟨h1, h1t⟩
        · rcases hbc with h2 | ⟨h2, h2t⟩
          · exact Or.inl (lt_trans h1 h2)
          · exact Or.inl (h2 ▸ h1)
        · rcases hbc with h2 | ⟨h2, h2t⟩
          · exact Or.inl (h1 ▸ h2)
          · exact Or.inr ⟨h1.trans h2, ih bt ct h1t h2t⟩

theorem charListLt_not_both (a b : List Char)
    (h1 : charListLt a b = true) (h2 : charListLt b a = true) : False := by
  have h3 := charListLt_trans a b a h1 h2
  rw [charListLt_irrefl] at h3
  exact Bool.false_ne_true h3

theorem charListLt_total : ∀ (a b : List Char),
    charListLt a b = false → charListLt b a = false → a = b := by
  intro a
  induction a with
  | nil =>
    intro b hab hba
    cases b with
    | nil => rfl
    | cons bh bt => simp [charListLt] at hab
  | cons ah at' ih =>
    intro b hab hba
    cases b with
    | nil => simp [charListLt] at hba
    | cons bh bt =>
      have hab' : ¬(ah < bh ∨ (ah = bh ∧ charListLt at' bt = true)) := by
        rw [← charListLt_cons_iff]
        simp [hab]
      have hba' : ¬(bh < ah ∨ (bh = ah ∧ charListLt bt at' = true)) := by
        rw [← charListLt_cons_iff]
        simp [hba]
      push_neg at hab' hba'
      have heq : ah = bh := le_antisymm hba'.1 hab'.1
      have ht : at' = bt := by
        apply ih
        · by_contra hc
          rw [Bool.not_eq_false] at hc
          exact absurd hc (hab'.2 heq)
        · by_contra hc
          rw [Bool.not_eq_false] at hc
          exact absurd hc (hba'.2 heq.symm)
      rw [heq, ht]

theorem strLt_trans (a b c : String) (h1 : strLt a b = true) (h2 : strLt b c = true) :
    strLt a c = true := charListLt_trans a.data b.data c.data h1 h2

theorem strLt_not_both (a b : String) (h1 : strLt a b = true) (h2 : strLt b a = true) :
    False := charListLt_not_both a.data b.data h1 h2

theorem strEq_of_data (a b : String) (h : a.data = b.data) : a = b := by
  cases a
  cases b
  exact congrArg String.mk h

theorem strLt_total (a b : String) (h1 : strLt a b = false) (h2 : strLt b a = false) :
    a = b := strEq_of_data a b (charListLt_total a.data b.data h1 h2)

theorem Smap.mem_set {α : Type} : ∀ (m : Smap α) (k : String) (v : α) (x : String × α),
    x ∈ m.set k v → x = (k, v) ∨ x ∈ m := by
  intro m k v
  induction m with
  | nil =>
    intro x hx
    rw [Smap.set] at hx
    rcases List.mem_singleton.mp hx with h
    exact Or.inl h
  | cons kv t ih =>
    obtain ⟨k', v'⟩ := kv
    intro x hx
    rw [Smap.set] at hx
    by_cases h1 : strLt k k' = true
    · rw [if_pos h1] at hx
      rcases List.mem_cons.mp hx with h | h
      · exact Or.inl h
      · exact Or.inr h
    · rw [if_neg h1] at hx
      by_cases h2 : k = k'
      · rw [if_pos h2] at hx
        rcases List.mem_cons.mp hx with h | h
        · exact Or.inl h
        · exact Or.inr (List.mem_cons_of_mem _ h)
      · rw [if_neg h2] at hx
        rcases List.mem_cons.mp hx with h | h
        · exact Or.inr (h ▸ List.mem_cons_self _ _)
        · rcases ih x h with h' | h'
          · exact Or.inl h'
          · exact Or.inr (List.mem_cons_of_mem _ h')

theorem Smap.lookup_mem {α : Type} : ∀ (m : Smap α) (k : String) (v : α),
    m.lookup k = some v → (k, v) ∈ m := by
  intro m k v
  induction m with
  | nil =>
    intro h
    rw [Smap.lookup] at h
    exact absurd h (by simp)
  | cons kv t ih =>
    obtain ⟨k', v'⟩ := kv
    intro h
    rw [Smap.lookup] at h
    by_cases hk : k = k'
    · rw [if_pos hk] at h
      subst hk
      rw [Option.some.injEq] at h
      exact h ▸ List.mem_cons_self _ _
    · rw [if_neg hk] at h
      exact List.mem_cons_of_mem _ (ih h)

theorem Smap.set_sorted {α : Type} : ∀ (m : Smap α) (k : String) (v : α),
    SortedSmap m → SortedSmap (m.set k v) := by
  intro m k v hs
  induction m with
  | nil =>
    rw [Smap.set]
    exact List.pairwise_singleton _ _
  | cons kv t ih =>
    obtain ⟨k', v'⟩ := kv
    obtain ⟨hhead, htail⟩ := List.pairwise_cons.mp hs
    rw [Smap.set]
    by_cases h1 : strLt k k' = true
    · rw [if_pos h1]
      refine List.pairwise_cons.mpr ⟨?_, hs⟩
      intro b hb
      rcases List.mem_cons.mp hb with h | h
      · rw [h]
        exact h1
      · exact strLt_trans _ _ _ h1 (hhead b h)
    · rw [if_neg h1]
      by_cases h2 : k = k'
      · rw [if_pos h2]
        subst h2
        exact List.pairwise_cons.mpr ⟨hhead, htail⟩
      · rw [if_neg h2]
        refine List.pairwise_cons.mpr ⟨?_, ih htail⟩
        intro b hb
        rcases Smap.mem_set t k v b hb with hb' | hb'
        · rw [hb']
          have h1' : strLt k k' = false := by simpa using h1
          cases hlt : strLt k' k with
          | true => rfl
          | false => exact absurd (strLt_total k k' h1' hlt) h2
        · exact hhead b hb'

theorem Smap.lookup_none_of_sorted_head {α : Type} (k : String) (v : α) (t : Smap α)
    (hs : SortedSmap ((k, v) :: t)) : t.lookup k = none := by
  obtain ⟨hhead, htail⟩ := List.pairwise_cons.mp hs
  cases hl : t.lookup k with
  | none => rfl
  | some w =>
    have hmem := Smap.lookup_mem t k w hl
    have h := hhead _ hmem
    rw [strLt_irrefl] at h
    exact absurd h Bool.false_ne_true

theorem Smap.mem_lookup {α : Type} : ∀ (m : Smap α), SortedSmap m →
    ∀ (k : String) (v : α), (k, v) ∈ m → m.lookup k = some v := by
  intro m
  induction m with
  | nil => simp
  | cons kv t ih =>
    obtain ⟨k', v'⟩ := kv
    intro hs k v hm
    obtain ⟨hhead, htail⟩ := List.pairwise_cons.mp hs
    rcases List.mem_cons.mp hm with hm' | hm'
    · have h1 : k = k' := congrArg Prod.fst hm'
      have h2 : v = v' := congrArg Prod.snd hm'
      subst h1
      rw [Smap.lookup, if_pos rfl, h2]
    · have hk : k ≠ k' := by
        intro h
        subst h
        have h := hhead _ hm'
        rw [strLt_irrefl] at h
        exact absurd h Bool.false_ne_true
      rw [Smap.lookup, if_neg hk]
      exact ih htail k v hm'

theorem Smap.ext_sorted {α : Type} : ∀ (m1 m2 : Smap α), SortedSmap m1 → SortedSmap m2 →
    (∀ k, m1.lookup k = m2.lookup k) → m1 = m2 := by
  intro m1
  induction m1 with
  | nil =>
    intro m2 _ hs2 hext
    cases m2 with
    | nil => rfl
    | cons kv t =>
      obtain ⟨k2, v2⟩ := kv
      have h := hext k2
      rw [Smap.lookup, Smap.lookup, if_pos rfl] at h
      exact absurd h (by simp)
  | cons kv t ih =>
    intro m2 hs1 hs2 hext
    obtain ⟨k1, v1⟩ := kv
    cases m2 with
    | nil =>
      have h := hext k1
      rw [Smap.lookup, Smap.lookup, if_pos rfl] at h
      exact absurd h (by simp)
    | cons kv2 t2 =>
      obtain ⟨k2, v2⟩ := kv2
      have heq : k1 = k2 := by
        by_contra hne
        have h1 : Smap.lookup ((k2, v2) :: t2) k1 = some v1 := by
          rw [← hext k1, Smap.lookup, if_pos rfl]
        have h2 : Smap.lookup ((k1, v1) :: t) k2 = some v2 := by
          rw [hext k2, Smap.lookup, if_pos rfl]
        rw [Smap.lookup, if_neg hne] at h1
        rw [Smap.lookup, if_neg (Ne.symm hne)] at h2
        have hm1 := Smap.lookup_mem _ _ _ h1
        have hm2 := Smap.lookup_mem _ _ _ h2
        obtain ⟨hh1, _⟩ := List.pairwise_cons.mp hs1
        obtain ⟨hh2, _⟩ := List.pairwise_cons.mp hs2
        exact strLt_not_both k1 k2 (hh1 _ hm2) (hh2 _ hm1)
      subst heq
      have hv : v1 = v2 := by
        have h := hext k1
        rw [Smap.lookup, Smap.lookup, if_pos rfl, if_pos rfl] at h
        exact Option.some.inj h
      subst hv
      have htail : t = t2 := by
        apply ih t2 (List.pairwise_cons.mp hs1).2 (List.pairwise_cons.mp hs2).2
        intro k
        by_cases hk : k = k1
        · subst hk
          rw [Smap.lookup_none_of_sorted_head _ _ _ hs1,
            Smap.lookup_none_of_sorted_head _ _ _ hs2]
        · have h := hext k
          rw [Smap.lookup, Smap.lookup, if_neg hk, if_neg hk] at h
          exact h
      rw [htail]

/-! ### Split/join lemmas for dotted keys -/

theorem splitDotsChars_ne_nil : ∀ l, splitDotsChars l ≠ [] := by
  intro l
  induction l with
  | nil => simp [splitDotsChars]
  | cons c rest ih =>
    rw [splitDotsChars]
    by_cases hc : c = '.'
    · simp [hc]
    · rw [if_neg hc]
      cases hsp : splitDotsChars rest with
      | nil => exact absurd hsp ih
      | cons t ts => simp

theorem joinDots_split : ∀ l, joinDotsChars (splitDotsChars l) = l := by
  intro l
  induction l with
  | nil => rfl
  | cons c rest ih =>
    rw [splitDotsChars]
    by_cases hc : c = '.'
    · rw [if_pos hc]
      subst hc
      cases hsp : splitDotsChars rest with
      | nil => exact absurd hsp (splitDotsChars_ne_nil rest)
      | cons t ts =>
        rw [hsp] at ih
        show ([] : List Char) ++ '.' :: joinDotsChars (t :: ts) = '.' :: rest
        rw [ih]
        rfl
    · rw [if_neg hc]
      cases hsp : splitDotsChars rest with
      | nil => exact absurd hsp (splitDotsChars_ne_nil rest)
      | cons t ts =>
        rw [hsp] at ih
        cases ts with
        | nil =>
          have ih' : t = rest := ih
          show c :: t = c :: rest
          rw [ih']
        | cons t2 ts2 =>
          have ih' : t ++ '.' :: joinDotsChars (t2 :: ts2) = rest := ih
          show (c :: t) ++ '.' :: joinDotsChars (t2 :: ts2) = c :: rest
          rw [← ih']
          rfl

theorem strData_append (a b : String) : (a ++ b).data = a.data ++ b.data := by
  cases a
  cases b
  rfl

theorem flagTokens_ne_nil (s : String) : flagTokens s ≠ [] := by
  rw [flagTokens]
  intro h
  exact splitDotsChars_ne_nil s.data (List.map_eq_nil_iff.mp h)

theorem joinPath_data : ∀ (L : List (List Char)),
    (joinPath (L.map String.mk)).data = joinDotsChars L := by
  intro L
  induction L with
  | nil => rfl
  | cons x xs ih =>
    cases xs with
    | nil => rfl
    | cons y ys =>
      have hjp : joinPath (List.map String.mk (x :: y :: ys))
          = String.mk x ++ "." ++ joinPath (List.map String.mk (y :: ys)) := rfl
      rw [hjp, strData_append, strData_append, ih]
      show (x ++ ['.']) ++ joinDotsChars (y :: ys) = x ++ '.' :: joinDotsChars (y :: ys)
      simp

theorem joinPath_flagTokens (s : String) : joinPath (flagTokens s) = s := by
  apply strEq_of_data
  rw [flagTokens, joinPath_data, joinDots_split]

theorem flagTokens_inj (a b : String) (h : flagTokens a = flagTokens b) : a = b := by
  rw [← joinPath_flagTokens a, ← joinPath_flagTokens b, h]

theorem flagJoin_of_ne (flag k : String) (h : flag ≠ "") :
    flagJoin flag k = flag ++ "." ++ k := by
  rw [flagJoin, if_neg h]

theorem flagJoin_empty (k : String) : flagJoin "" k = k := by
  rw [flagJoin, if_pos rfl]
  apply strEq_of_data
  rw [strData_append, strData_append]
  rfl

theorem flagJoin_ne_empty (flag k : String) (h : flag ≠ "") : flagJoin flag k ≠ "" := by
  rw [flagJoin_of_ne flag k h]
  intro hc
  have hd := congrArg String.data hc
  rw [strData_append, strData_append] at hd
  simp at hd

theorem foldl_flagJoin_ne : ∀ (p : List String) (flag : String), flag ≠ "" → p ≠ [] →
    p.foldl flagJoin flag = flag ++ "." ++ joinPath p := by
  intro p
  induction p with
  | nil => intro flag _ hp; exact absurd rfl hp
  | cons x xs ih =>
    intro flag h _
    rw [List.foldl_cons]
    cases xs with
    | nil =>
      rw [List.foldl_nil, flagJoin_of_ne _ _ h]
      rfl
    | cons y ys =>
      rw [ih (flagJoin flag x) (flagJoin_ne_empty flag x h) (by simp)]
      rw [flagJoin_of_ne _ _ h]
      have hjp : joinPath (x :: y :: ys) = x ++ "." ++ joinPath (y :: ys) := rfl
      rw [hjp]
      apply strEq_of_data
      simp [strData_append]

theorem foldl_flagJoin_root (p : List String) (hne : p ≠ [])
    (hd : 2 ≤ p.length → p.headD "" ≠ "") : p.foldl flagJoin "" = joinPath p := by
  cases p with
  | nil => exact absurd rfl hne
  | cons x xs =>
    rw [List.foldl_cons, flagJoin_empty]
    cases xs with
    | nil => rfl
    | cons y ys =>
      have hx : x ≠ "" := by
        have := hd (by simp)
        simpa using this
      rw [foldl_flagJoin_ne (y :: ys) x hx (by simp)]
      rfl

/-! ### Custom induction over documents and cleanliness facts -/

theorem json_ind {motive : Json → Prop}
    (hnum : ∀ q, motive (.num q)) (hbool : ∀ b, motive (.bool b))
    (hstr : ∀ s, motive (.str s)) (harr : ∀ l, motive (.arr l)) (hnull : motive .null)
    (hobj : ∀ fields, (∀ kv, kv ∈ fields → motive kv.2) → motive (.obj fields)) :
    ∀ j, motive j := by
  intro j
  match j with
  | .num q => exact hnum q
  | .bool b => exact hbool b
  | .str s => exact hstr s
  | .arr l => exact harr l
  | .null => exact hnull
  | .obj fields =>
    apply hobj
    intro kv hkv
    exact json_ind hnum hbool hstr harr hnull hobj kv.2
termination_by j => sizeOf j
decreasing_by
  cases kv with
  | mk k c =>
    have h := List.sizeOf_lt_sizeOf_of_mem hkv
    simp only [Prod.mk.sizeOf_spec] at h
    simp only [Json.obj.sizeOf_spec]
    omega

theorem cleanL_mem : ∀ (l : List (String × Json)), CleanL l → ∀ kv ∈ l, CleanJ kv.2 := by
  intro l
  induction l with
  | nil =>
    intro _ kv h
    simp at h
  | cons x t ih =>
    intro hl kv hkv
    cases hl with
    | cons k c rest hc hrest =>
      rcases List.mem_cons.mp hkv with h | h
      · rw [h]
        exact hc
      · exact ih hrest kv h

theorem leafEntriesL_of_lookup : ∀ (m : List (String × Json)) (t : String) (c : Json),
    Smap.lookup m t = some c →
    ∀ pv ∈ leafEntries c, (t :: pv.1, pv.2) ∈ leafEntriesL m := by
  intro m
  induction m with
  | nil =>
    intro t c h
    rw [Smap.lookup] at h
    exact absurd h (by simp)
  | cons kv rest ih =>
    obtain ⟨k', c'⟩ := kv
    intro t c h pv hpv
    rw [Smap.lookup] at h
    rw [leafEntriesL]
    by_cases hk : t = k'
    · rw [if_pos hk] at h
      have h' := Option.some.inj h
      apply List.mem_append_left
      subst hk
      rw [h']
      exact List.mem_map.mpr ⟨pv, hpv, rfl⟩
    · rw [if_neg hk] at h
      exact List.mem_append_right _ (ih t c h pv hpv)

theorem leafEntries_scalar (l : Json) (lv : MValue) (h : scalarMV l = some lv) :
    leafEntries l = [([], lv)] ∧ CleanJ l := by
  cases l with
  | num q =>
    rw [scalarMV, Option.some.injEq] at h
    exact ⟨by rw [leafEntries, h], CleanJ.num q⟩
  | bool b =>
    rw [scalarMV, Option.some.injEq] at h
    exact ⟨by rw [leafEntries, h], CleanJ.bool b⟩
  | str s =>
    rw [scalarMV, Option.some.injEq] at h
    exact ⟨by rw [leafEntries, h], CleanJ.str s⟩
  | obj fields => exact Option.noConfusion h
  | arr l => exact Option.noConfusion h
  | null => exact Option.noConfusion h

theorem clean_nonempty_leaf : ∀ (c : Json), CleanJ c → ∃ pv, pv ∈ leafEntries c := by
  intro c
  induction c using json_ind with
  | hnum q => intro _; exact ⟨([], MValue.ofNum q), by rw [leafEntries]; simp⟩
  | hbool b => intro _; exact ⟨([], MValue.ofBool b), by rw [leafEntries]; simp⟩
  | hstr s => intro _; exact ⟨([], MValue.ofStr s), by rw [leafEntries]; simp⟩
  | harr l => intro hc; cases hc
  | hnull => intro hc; cases hc
  | hobj fields ih =>
    intro hc
    cases hc with
    | obj _ hne hsort hch =>
      cases hf : fields with
      | nil => exact absurd hf hne
      | cons kv rest =>
        obtain ⟨k, c0⟩ := kv
        subst hf
        have hc0 : CleanJ c0 := cleanL_mem _ hch (k, c0) (List.mem_cons_self _ _)
        obtain ⟨pv, hpv⟩ := ih (k, c0) (List.mem_cons_self _ _) hc0
        refine ⟨(k :: pv.1, pv.2), ?_⟩
        rw [leafEntries, leafEntriesL]
        exact List.mem_append_left _ (List.mem_map.mpr ⟨pv, hpv, rfl⟩)

/-! ### Leaf-entry bookkeeping for map updates -/

theorem perm_swap_append {α : Type} (a b d : List α) :
    List.Perm (a ++ (b ++ d)) (b ++ (a ++ d)) := by
  rw [← List.append_assoc, ← List.append_assoc]
  exact List.Perm.append_right d List.perm_append_comm

theorem Smap.erase_of_lookup_none {α : Type} : ∀ (m : Smap α) (k : String),
    Smap.lookup m k = none → Smap.erase m k = m := by
  intro m k
  induction m with
  | nil => intro _; rfl
  | cons kv rest ih =>
    obtain ⟨k', v'⟩ := kv
    intro h
    rw [Smap.lookup] at h
    by_cases hk : k = k'
    · rw [if_pos hk] at h
      exact absurd h (by simp)
    · rw [if_neg hk] at h
      rw [Smap.erase, if_neg hk, ih h]

theorem Smap.lookup_none_of_lt_head {α : Type} (t k' : String) (v' : α) (rest : Smap α)
    (h : strLt t k' = true) (hs : SortedSmap ((k', v') :: rest)) :
    Smap.lookup ((k', v') :: rest) t = none := by
  obtain ⟨hhead, htail⟩ := List.pairwise_cons.mp hs
  have hne : t ≠ k' := by
    intro he
    subst he
    rw [strLt_irrefl] at h
    exact Bool.false_ne_true h
  rw [Smap.lookup, if_neg hne]
  cases hlk : Smap.lookup rest t with
  | none => rfl
  | some w =>
    have hmem := Smap.lookup_mem rest t w hlk
    have h2 := hhead _ hmem
    have h3 := strLt_trans t k' t h h2
    rw [strLt_irrefl] at h3
    exact absurd h3 Bool.false_ne_true

theorem leafEntriesL_erase : ∀ (m : List (String × Json)) (t : String) (c0 : Json),
    Smap.lookup m t = some c0 →
    List.Perm (leafEntriesL m)
      ((leafEntries c0).map (fun pv => (t :: pv.1, pv.2)) ++ leafEntriesL (Smap.erase m t)) := by
  intro m
  induction m with
  | nil =>
    intro t c0 h
    rw [Smap.lookup] at h
    exact absurd h (by simp)
  | cons kv rest ih =>
    obtain ⟨k', c'⟩ := kv
    intro t c0 h
    rw [Smap.lookup] at h
    by_cases hk : t = k'
    · rw [if_pos hk] at h
      have hc := Option.some.inj h
      subst hk
      subst hc
      rw [Smap.erase, if_pos rfl, leafEntriesL]
    · rw [if_neg hk] at h
      rw [Smap.erase, if_neg hk, leafEntriesL, leafEntriesL]
      have hp := List.Perm.append_left ((leafEntries c').map (fun pv => (k' :: pv.1, pv.2)))
        (ih t c0 h)
      exact hp.trans (perm_swap_append _ _ _)

theorem leafEntriesL_set : ∀ (m : List (String × Json)) (t : String) (c : Json),
    SortedSmap m →
    List.Perm (leafEntriesL (Smap.set m t c))
      ((leafEntries c).map (fun pv => (t :: pv.1, pv.2)) ++ leafEntriesL (Smap.erase m t)) := by
  intro m
  induction m with
  | nil =>
    intro t c _
    exact List.Perm.refl _
  | cons kv rest ih =>
    obtain ⟨k', c'⟩ := kv
    intro t c hs
    obtain ⟨hhead, htail⟩ := List.pairwise_cons.mp hs
    rw [Smap.set]
    by_cases h1 : strLt t k' = true
    · rw [if_pos h1]
      rw [Smap.erase_of_lookup_none _ _ (Smap.lookup_none_of_lt_head t k' c' rest h1 hs)]
      rw [leafEntriesL]
    · rw [if_neg h1]
      by_cases h2 : t = k'
      · rw [if_pos h2]
        subst h2
        rw [Smap.erase, if_pos rfl, leafEntriesL]
      · rw [if_neg h2]
        rw [Smap.erase, if_neg h2, leafEntriesL, leafEntriesL]
        have hp := List.Perm.append_left ((leafEntries c').map (fun pv => (k' :: pv.1, pv.2)))
          (ih t c htail)
        exact hp.trans (perm_swap_append _ _ _)

theorem cleanL_set : ∀ (m : List (String × Json)) (t : String) (c : Json),
    CleanL m → CleanJ c → CleanL (Smap.set m t c) := by
  intro m
  induction m with
  | nil =>
    intro t c _ hc
    rw [Smap.set]
    exact CleanL.cons t c [] hc CleanL.nil
  | cons kv rest ih =>
    obtain ⟨k', c'⟩ := kv
    intro t c hm hc
    cases hm with
    | cons _ _ _ hc' hrest =>
      rw [Smap.set]
      by_cases h1 : strLt t k' = true
      · rw [if_pos h1]
        exact CleanL.cons _ _ _ hc (CleanL.cons _ _ _ hc' hrest)
      · rw [if_neg h1]
        by_cases h2 : t = k'
        · rw [if_pos h2]
          exact CleanL.cons _ _ _ hc hrest
        · rw [if_neg h2]
          exact CleanL.cons _ _ _ hc' (ih t c hrest hc)

theorem navInsert_cons2 (U : List (String × Json)) (t r : String) (rs : List String)
    (leaf : Option Json) :
    navInsert U (t :: r :: rs) leaf
      = match (Smap.lookup U t).getD (.obj []) with
        | .obj cm =>
          match navInsert cm (r :: rs) leaf with
          | some cm' => some (Smap.set U t (.obj cm'))
          | none => none
        | _ => none := rfl

theorem navInsert_correct : ∀ (p : List String) (U : List (String × Json)) (l : Json)
    (lv : MValue), p ≠ [] → SortedSmap U → CleanL U → scalarMV l = some lv →
    (∀ q ∈ leafEntriesL U, listPfx p q.1 = false ∧ listPfx q.1 p = false) →
    ∃ U', navInsert U p (some l) = some U' ∧ SortedSmap U' ∧ CleanL U' ∧
      List.Perm (leafEntriesL U') ((p, lv) :: leafEntriesL U) := by
  intro p
  induction p with
  | nil =>
    intro U l lv hne
    exact absurd rfl hne
  | cons t rest ih =>
    intro U l lv _ hs hcl hl hpfx
    cases rest with
    | nil =>
      refine ⟨Smap.set U t l, rfl, Smap.set_sorted U t l hs,
        cleanL_set U t l hcl (leafEntries_scalar l lv hl).2, ?_⟩
      have hnone : Smap.lookup U t = none := by
        cases hlk : Smap.lookup U t with
        | none => rfl
        | some c0 =>
          have hc0 : CleanJ c0 := cleanL_mem U hcl (t, c0) (Smap.lookup_mem U t c0 hlk)
          obtain ⟨pv, hpv⟩ := clean_nonempty_leaf c0 hc0
          have hmem := leafEntriesL_of_lookup U t c0 hlk pv hpv
          have hfx := (hpfx _ hmem).1
          simp [listPfx] at hfx
      have hperm := leafEntriesL_set U t l hs
      rw [Smap.erase_of_lookup_none U t hnone, (leafEntries_scalar l lv hl).1] at hperm
      simpa using hperm
    | cons r rs =>
      cases hlk : Smap.lookup U t with
      | none =>
        obtain ⟨cm', hnav, hs', hcl', hperm'⟩ := ih [] l lv (by simp) List.Pairwise.nil
          CleanL.nil hl (by intro q hq; rw [leafEntriesL] at hq; exact absurd hq (by simp))
        have hne' : cm' ≠ [] := by
          intro he
          subst he
          have hlen := hperm'.length_eq
          rw [leafEntriesL] at hlen
          simp at hlen
        refine ⟨Smap.set U t (.obj cm'), ?_, Smap.set_sorted U t _ hs,
          cleanL_set U t _ hcl (CleanJ.obj cm' hne' hs' hcl'), ?_⟩
        · rw [navInsert_cons2, hlk]
          show (match navInsert ([] : List (String × Json)) (r :: rs) (some l) with
                | some cm' => some (Smap.set U t (.obj cm'))
                | none => none) = _
          rw [hnav]
        · have h1 := leafEntriesL_set U t (.obj cm') hs
          rw [Smap.erase_of_lookup_none U t hlk] at h1
          have h3 : List.Perm ((leafEntries (Json.obj cm')).map (fun pv => (t :: pv.1, pv.2)))
              [(t :: r :: rs, lv)] := by
            have hm := hperm'.map (fun pv => (t :: pv.1, pv.2))
            rw [leafEntriesL] at hm
            simpa using hm
          exact h1.trans (h3.append_right _)
      | some c0 =>
        have hc0 : CleanJ c0 := cleanL_mem U hcl (t, c0) (Smap.lookup_mem U t c0 hlk)
        cases c0 with
        | num q =>
          have hmem := leafEntriesL_of_lookup U t _ hlk ([], MValue.ofNum q)
            (by rw [leafEntries]; exact List.mem_singleton.mpr rfl)
          have hfx := (hpfx _ hmem).2
          simp [listPfx] at hfx
        | bool b =>
          have hmem := leafEntriesL_of_lookup U t _ hlk ([], MValue.ofBool b)
            (by rw [leafEntries]; exact List.mem_singleton.mpr rfl)
          have hfx := (hpfx _ hmem).2
          simp [listPfx] at hfx
        | str s =>
          have hmem := leafEntriesL_of_lookup U t _ hlk ([], MValue.ofStr s)
            (by rw [leafEntries]; exact List.mem_singleton.mpr rfl)
          have hfx := (hpfx _ hmem).2
          simp [listPfx] at hfx
        | arr es => cases hc0
        | null => cases hc0
        | obj cm =>
          cases hc0 with
          | obj _ hcne hcsort hcch =>
            have hpfx' : ∀ q ∈ leafEntriesL cm,
                listPfx (r :: rs) q.1 = false ∧ listPfx q.1 (r :: rs) = false := by
              intro q hq
              have hmem := leafEntriesL_of_lookup U t (.obj cm) hlk q
                (by rw [leafEntries]; exact hq)
              obtain ⟨hx1, hx2⟩ := hpfx _ hmem
              simp [listPfx] at hx1 hx2
              exact ⟨hx1, hx2⟩
            obtain ⟨cm', hnav, hs', hcl', hperm'⟩ := ih cm l lv (by simp) hcsort hcch hl hpfx'
            have hne' : cm' ≠ [] := by
              intro he
              subst he
              have hlen := hperm'.length_eq
              rw [leafEntriesL] at hlen
              simp at hlen
            refine ⟨Smap.set U t (.obj cm'), ?_, Smap.set_sorted U t _ hs,
              cleanL_set U t _ hcl (CleanJ.obj cm' hne' hs' hcl'), ?_⟩
            · rw [navInsert_cons2, hlk]
              show (match navInsert cm (r :: rs) (some l) with
                    | some cm' => some (Smap.set U t (.obj cm'))
                    | none => none) = _
              rw [hnav]
            · have h1 := leafEntriesL_set U t (.obj cm') hs
              have h2 := leafEntriesL_erase U t (.obj cm) hlk
              have h3 : List.Perm
                  ((leafEntries (Json.obj cm')).map (fun pv => (t :: pv.1, pv.2)))
                  ((t :: r :: rs, lv) ::
                    (leafEntries (Json.obj cm)).map (fun pv => (t :: pv.1, pv.2))) := by
                have hm := hperm'.map (fun pv => (t :: pv.1, pv.2))
                simpa using hm
              exact h1.trans ((h3.append_right _).trans (List.Perm.cons _ h2.symm))

theorem jsonLeaf_of_scalar (v : MValue) (h : isJsonScalarMV v = true) :
    ∃ l, jsonLeaf v = some l ∧ scalarMV l = some v := by
  rw [isJsonScalarMV] at h
  cases hd : v.data with
  | none =>
    rw [hd] at h
    exact Bool.noConfusion h
  | some p =>
    cases p with
    | pInt i =>
      rw [hd] at h
      exact Bool.noConfusion h
    | pNum q =>
      rw [hd] at h
      have hv : v = MValue.ofNum q := by simpa using h
      exact ⟨.num q, by rw [hv]; rfl, by rw [scalarMV, hv]⟩
    | pBool b =>
      rw [hd] at h
      have hv : v = MValue.ofBool b := by simpa using h
      exact ⟨.bool b, by rw [hv]; rfl, by rw [scalarMV, hv]⟩
    | pStr s =>
      rw [hd] at h
      have hv : v = MValue.ofStr s := by simpa using h
      exact ⟨.str s, by rw [hv]; rfl, by rw [scalarMV, hv]⟩

theorem serFold_inv : ∀ (rest proc : List (String × MValue)) (U : List (String × Json)),
    (∀ kv ∈ rest, isJsonScalarMV kv.2 = true) →
    (∀ kv ∈ rest, ∀ kw ∈ proc,
      listPfx (flagTokens kv.1) (flagTokens kw.1) = false ∧
      listPfx (flagTokens kw.1) (flagTokens kv.1) = false) →
    List.Pairwise (fun a b =>
      listPfx (flagTokens a.1) (flagTokens b.1) = false ∧
      listPfx (flagTokens b.1) (flagTokens a.1) = false) rest →
    SortedSmap U → CleanL U →
    List.Perm (leafEntriesL U) (proc.map (fun kv => (flagTokens kv.1, kv.2))) →
    ∃ U', List.foldl serStep (some U) rest = some U' ∧ SortedSmap U' ∧ CleanL U' ∧
      List.Perm (leafEntriesL U') ((proc ++ rest).map (fun kv => (flagTokens kv.1, kv.2))) := by
  intro rest
  induction rest with
  | nil =>
    intro proc U _ _ _ hs hcl hperm
    exact ⟨U, rfl, hs, hcl, by simpa using hperm⟩
  | cons kv rest' ih =>
    obtain ⟨k, v⟩ := kv
    intro proc U hscal hcross hpair hs hcl hperm
    obtain ⟨hphead, hptail⟩ := List.pairwise_cons.mp hpair
    obtain ⟨l, hleaf, hsc⟩ := jsonLeaf_of_scalar v (hscal (k, v) (List.mem_cons_self _ _))
    have hU1 : ∃ U1, serStep (some U) (k, v) = some U1 ∧ SortedSmap U1 ∧ CleanL U1 ∧
        List.Perm (leafEntriesL U1) ((flagTokens k, v) :: leafEntriesL U) := by
      by_cases hlen : 1 < (flagTokens k).length
      · have hpfxU : ∀ q ∈ leafEntriesL U,
            listPfx (flagTokens k) q.1 = false ∧ listPfx q.1 (flagTokens k) = false := by
          intro q hq
          have hq' := hperm.mem_iff.mp hq
          obtain ⟨kw, hkw, heq⟩ := List.mem_map.mp hq'
          have hcr := hcross (k, v) (List.mem_cons_self _ _) kw hkw
          rw [← heq]
          exact hcr
        obtain ⟨U1, hnav, hs1, hcl1, hperm1⟩ := navInsert_correct (flagTokens k) U l v
          (flagTokens_ne_nil k) hs hcl hsc hpfxU
        refine ⟨U1, ?_, hs1, hcl1, hperm1⟩
        show (if 1 < (flagTokens k).length then navInsert U (flagTokens k) (jsonLeaf v)
              else _) = some U1
        rw [if_pos hlen, hleaf]
        exact hnav
      · obtain ⟨t, ht⟩ : ∃ t, flagTokens k = [t] := by
          cases hft : flagTokens k with
          | nil => exact absurd hft (flagTokens_ne_nil k)
          | cons a as =>
            cases as with
            | nil => exact ⟨a, rfl⟩
            | cons b bs =>
              exact absurd (by rw [hft, List.length_cons, List.length_cons]; omega) hlen
        have hlknone : Smap.lookup U t = none := by
          cases hlk : Smap.lookup U t with
          | none => rfl
          | some c0 =>
            have hc0 : CleanJ c0 := cleanL_mem U hcl (t, c0) (Smap.lookup_mem U t c0 hlk)
            obtain ⟨pv, hpv⟩ := clean_nonempty_leaf c0 hc0
            have hmem := leafEntriesL_of_lookup U t c0 hlk pv hpv
            have hmem' := hperm.mem_iff.mp hmem
            obtain ⟨kw, hkw, heq⟩ := List.mem_map.mp hmem'
            have hcr := (hcross (k, v) (List.mem_cons_self _ _) kw hkw).1
            have hfst : flagTokens kw.1 = t :: pv.1 := congrArg Prod.fst heq
            rw [ht, hfst] at hcr
            simp [listPfx] at hcr
        refine ⟨Smap.set U t l, ?_, Smap.set_sorted U t l hs,
          cleanL_set U t l hcl (leafEntries_scalar l v hsc).2, ?_⟩
        · show (if 1 < (flagTokens k).length then navInsert U (flagTokens k) (jsonLeaf v)
                else match Smap.lookup U ((flagTokens k).headD "") with
                     | some _ => some U
                     | none =>
                       match jsonLeaf v with
                       | some l0 => some (Smap.set U ((flagTokens k).headD "") l0)
                       | none => some U) = some (Smap.set U t l)
          rw [if_neg hlen, ht, List.headD_cons, hlknone, hleaf]
        · have hp := leafEntriesL_set U t l hs
          rw [Smap.erase_of_lookup_none U t hlknone, (leafEntries_scalar l v hsc).1] at hp
          rw [ht]
          simpa using hp
    obtain ⟨U1, hstep, hs1, hcl1, hperm1⟩ := hU1
    have hcross' : ∀ kv ∈ rest', ∀ kw ∈ proc ++ [(k, v)],
        listPfx (flagTokens kv.1) (flagTokens kw.1) = false ∧
        listPfx (flagTokens kw.1) (flagTokens kv.1) = false := by
      intro kv hkv kw hkw
      rcases List.mem_append.mp hkw with hw | hw
      · exact hcross kv (List.mem_cons_of_mem _ hkv) kw hw
      · have hkweq := List.mem_singleton.mp hw
        subst hkweq
        have hh := hphead kv hkv
        exact ⟨hh.2, hh.1⟩
    have hperm1' : List.Perm (leafEntriesL U1)
        ((proc ++ [(k, v)]).map (fun kv => (flagTokens kv.1, kv.2))) := by
      rw [List.map_append]
      have hstep2 := hperm1.trans (List.Perm.cons (flagTokens k, v) hperm)
      exact hstep2.trans (List.perm_append_singleton _ _).symm
    obtain ⟨U', hfold, hs', hcl', hperm''⟩ := ih (proc ++ [(k, v)]) U1
      (fun kv hkv => hscal kv (List.mem_cons_of_mem _ hkv)) hcross' hptail hs1 hcl1 hperm1'
    refine ⟨U', ?_, hs', hcl', ?_⟩
    · rw [List.foldl_cons, hstep]
      exact hfold
    · rw [List.append_assoc] at hperm''
      exact hperm''

/-! ### Applying flattened entries to the resolved map -/

theorem applyEntries_append : ∀ (e1 e2 : List (List String × MValue)) (m : Smap MValue)
    (flag : String),
    applyEntries m flag (e1 ++ e2) = applyEntries (applyEntries m flag e1) flag e2 := by
  intro e1
  induction e1 with
  | nil => intro e2 m flag; rfl
  | cons pv rest ih =>
    obtain ⟨p, v⟩ := pv
    intro e2 m flag
    rw [List.cons_append, applyEntries, applyEntries]
    exact ih e2 _ flag

theorem applyEntries_shift : ∀ (es : List (List String × MValue)) (m : Smap MValue)
    (flag t : String),
    applyEntries m flag (es.map (fun pv => (t :: pv.1, pv.2)))
      = applyEntries m (flagJoin flag t) es := by
  intro es
  induction es with
  | nil => intro m flag t; rfl
  | cons pv rest ih =>
    obtain ⟨p, v⟩ := pv
    intro m flag t
    rw [List.map_cons, applyEntries, applyEntries]
    exact ih _ flag t

theorem applyEntries_sorted : ∀ (es : List (List String × MValue)) (m : Smap MValue)
    (flag : String), SortedSmap m → SortedSmap (applyEntries m flag es) := by
  intro es
  induction es with
  | nil => intro m flag hs; exact hs
  | cons pv rest ih =>
    obtain ⟨p, v⟩ := pv
    intro m flag hs
    rw [applyEntries]
    exact ih _ flag (Smap.set_sorted m _ v hs)

theorem applyEntries_lookup_absent : ∀ (es : List (List String × MValue)) (m : Smap MValue)
    (flag key : String),
    (∀ e ∈ es, List.foldl flagJoin flag e.1 ≠ key) →
    Smap.lookup (applyEntries m flag es) key = Smap.lookup m key := by
  intro es
  induction es with
  | nil => intro m flag key _; rfl
  | cons pv rest ih =>
    obtain ⟨p, v⟩ := pv
    intro m flag key hne
    rw [applyEntries, ih _ flag key (fun e he => hne e (List.mem_cons_of_mem _ he))]
    exact Smap.lookup_set_ne m _ key v (Ne.symm (hne (p, v) (List.mem_cons_self _ _)))

theorem applyEntries_lookup_found (es1 es2 : List (List String × MValue)) (p : List String)
    (v : MValue) (m : Smap MValue) (flag key : String)
    (hkey : List.foldl flagJoin flag p = key)
    (habs : ∀ e ∈ es2, List.foldl flagJoin flag e.1 ≠ key) :
    Smap.lookup (applyEntries m flag (es1 ++ (p, v) :: es2)) key = some v := by
  rw [applyEntries_append, applyEntries,
    applyEntries_lookup_absent es2 _ flag key habs, hkey]
  exact Smap.lookup_set_self _ key v

/-! ### The flattening loader on clean documents -/

mutual
theorem parseJSONv_flatten : ∀ (j : Json) (flag : String) (st : ConfigState),
    CleanJ j → st.options = [] →
    parseJSONv j flag st
      = (true, { st with optionValues := applyEntries st.optionValues flag (leafEntries j) })
  | .num q, flag, st, _, hopts => by
    show st.getJSONValue (.num q) flag = _
    rw [ConfigState.getJSONValue, hopts]
    rfl
  | .bool b, flag, st, _, hopts => by
    show st.getJSONValue (.bool b) flag = _
    rw [ConfigState.getJSONValue, hopts]
    rfl
  | .str s, flag, st, _, hopts => by
    show st.getJSONValue (.str s) flag = _
    rw [ConfigState.getJSONValue, hopts]
    rfl
  | .obj fields, flag, st, hc, hopts => by
    cases hc with
    | obj _ hne hsort hch =>
      show parseJSONfields fields flag st = _
      rw [parseJSONfields_flatten fields flag st hch hopts]
      rfl
  | .arr es, _, _, hc, _ => by cases hc
  | .null, _, _, hc, _ => by cases hc

theorem parseJSONfields_flatten : ∀ (l : List (String × Json)) (flag : String)
    (st : ConfigState), CleanL l → st.options = [] →
    parseJSONfields l flag st
      = (true, { st with optionValues := applyEntries st.optionValues flag (leafEntriesL l) })
  | [], flag, st, _, _ => rfl
  | (key, item) :: rest, flag, st, hc, hopts => by
    cases hc with
    | cons _ _ _ hitem hrest =>
      have h1 := parseJSONv_flatten item (flagJoin flag key) st hitem hopts
      rw [parseJSONfields, h1]
      show parseJSONfields rest flag
        { st with optionValues :=
            applyEntries st.optionValues (flagJoin flag key) (leafEntries item) } = _
      rw [parseJSONfields_flatten rest flag { st with optionValues := applyEntries st.optionValues (flagJoin flag key) (leafEntries item) } hrest hopts]
      show (true, { st with optionValues := applyEntries (applyEntries st.optionValues (flagJoin flag key) (leafEntries item)) flag (leafEntriesL rest) }) = _
      rw [← applyEntries_shift, ← applyEntries_append]
      rfl
end

/-- C4 counterexample: the flat scalar map {"a": "x", "a.b": "y"} is a
well-formed sorted key→scalar map with no array-valued nodes, yet
Config::serialize cannot unflatten it: writing "a.b" descends through the
key "a", whose value is a string, and picojson's get<object>() on a
non-object fails, so the serializer produces no document at all — nothing
whose flattening could reproduce the map.  The spec's unconditional
round-trip claim therefore fails for maps where one key's dot-path is a
prefix of another's. -/
theorem C4_counterexample :
    SortedSmap [("a", MValue.ofStr "x"), ("a.b", MValue.ofStr "y")] ∧
    (∀ kv ∈ [("a", MValue.ofStr "x"), ("a.b", MValue.ofStr "y")],
      isJsonScalarMV kv.2 = true) ∧
    serializeJSONObj [("a", MValue.ofStr "x"), ("a.b", MValue.ofStr "y")] = none := by
  refine ⟨by decide, by decide, rfl⟩

/-- C4 (amended): for every sorted flat key→scalar map whose values are
JSON-representable scalars, whose dot-split key paths are pairwise
non-prefix (neither path is a prefix of the other), and whose keys do not
start with a dot, the JSON branch of Config::serialize unflattens it into
a nested document, and Config::loadJSON of that document on a registry
with no declared options flattens it back to exactly the original map,
leaving the rest of the state untouched. -/
theorem C4_roundtrip_amended (M : Smap MValue) (st : ConfigState)
    (hsort : SortedSmap M)
    (hscal : ∀ kv ∈ M, isJsonScalarMV kv.2 = true)
    (hdot : ∀ kv ∈ M, 2 ≤ (flagTokens kv.1).length → (flagTokens kv.1).headD "" ≠ "")
    (hpfx : List.Pairwise (fun a b =>
      listPfx (flagTokens a.1) (flagTokens b.1) = false ∧
      listPfx (flagTokens b.1) (flagTokens a.1) = false) M)
    (hopts : st.options = []) (hvals : st.optionValues = []) :
    ∃ U, serializeJSONObj M = some U ∧
      st.loadJSON (Json.obj U) = (true, { st with optionValues := M }) := by
  obtain ⟨U, hser, hsU, hclU, hpermU⟩ := serFold_inv M [] [] hscal
    (fun kv _ kw hkw => absurd hkw (by simp)) hpfx List.Pairwise.nil CleanL.nil
    List.Perm.nil
  rw [List.nil_append] at hpermU
  have hnodupM : M.Nodup := List.Pairwise.imp
    (fun h he => by rw [he, strLt_irrefl] at h; exact Bool.false_ne_true h) hsort
  have hinj : Function.Injective (fun kv : String × MValue => (flagTokens kv.1, kv.2)) := by
    intro a b hab
    have h1 := congrArg Prod.fst hab
    have h2 := congrArg Prod.snd hab
    exact Prod.ext (flagTokens_inj _ _ h1) h2
  have hnodupE : (leafEntriesL U).Nodup :=
    (hpermU.nodup_iff).mpr (hnodupM.map hinj)
  have hjoin : ∀ kv ∈ M, List.foldl flagJoin "" (flagTokens kv.1) = kv.1 := by
    intro kv hkv
    rw [foldl_flagJoin_root (flagTokens kv.1) (flagTokens_ne_nil kv.1) (hdot kv hkv)]
    exact joinPath_flagTokens kv.1
  have hmap : applyEntries [] "" (leafEntriesL U) = M := by
    apply Smap.ext_sorted _ _ (applyEntries_sorted (leafEntriesL U) [] "" List.Pairwise.nil)
      hsort
    intro key
    cases hMk : Smap.lookup M key with
    | some v =>
      have hmemM := Smap.lookup_mem M key v hMk
      have hment : (flagTokens key, v) ∈ leafEntriesL U :=
        hpermU.mem_iff.mpr (List.mem_map.mpr ⟨(key, v), hmemM, rfl⟩)
      obtain ⟨es1, es2, hsplit⟩ := List.append_of_mem hment
      have habs : ∀ e ∈ es2, List.foldl flagJoin "" e.1 ≠ key := by
        intro e he hkey
        have he' : e ∈ leafEntriesL U := by
          rw [hsplit]
          exact List.mem_append_right _ (List.mem_cons_of_mem _ he)
        obtain ⟨kw, hkw, hfeq⟩ := List.mem_map.mp (hpermU.mem_iff.mp he')
        have h1 : flagTokens kw.1 = e.1 := congrArg Prod.fst hfeq
        have h2 := hjoin kw hkw
        rw [h1] at h2
        have hkweq : kw.1 = key := by rw [← h2, hkey]
        have hkv2 : (key, kw.2) ∈ M := by
          rw [← hkweq]
          exact hkw
        have hlk2 := Smap.mem_lookup M hsort key kw.2 hkv2
        rw [hMk] at hlk2
        have hveq : v = kw.2 := Option.some.inj hlk2
        have heq2 : e = (flagTokens key, v) := by rw [← hfeq, hkweq, ← hveq]
        have hnotin : (flagTokens key, v) ∉ es2 := by
          have hnd := hnodupE
          rw [hsplit] at hnd
          exact (List.nodup_cons.mp (List.nodup_append.mp hnd).2.1).1
        exact hnotin (heq2 ▸ he)
      rw [hsplit,
        applyEntries_lookup_found es1 es2 (flagTokens key) v [] "" key
          (hjoin (key, v) hmemM) habs]
    | none =>
      have habs : ∀ e ∈ leafEntriesL U, List.foldl flagJoin "" e.1 ≠ key := by
        intro e he hkey
        obtain ⟨kw, hkw, hfeq⟩ := List.mem_map.mp (hpermU.mem_iff.mp he)
        have h1 : flagTokens kw.1 = e.1 := congrArg Prod.fst hfeq
        have h2 := hjoin kw hkw
        rw [h1] at h2
        have hkweq : kw.1 = key := by rw [← h2, hkey]
        have hkv2 : (key, kw.2) ∈ M := by
          rw [← hkweq]
          exact hkw
        have hlk2 := Smap.mem_lookup M hsort key kw.2 hkv2
        rw [hMk] at hlk2
        exact Option.noConfusion hlk2
      rw [applyEntries_lookup_absent (leafEntriesL U) [] "" key habs, Smap.lookup]
  refine ⟨U, ?_, ?_⟩
  · rw [serializeJSONObj]
    exact hser
  · rw [ConfigState.loadJSON]
    show parseJSONfields U "" st = _
    rw [parseJSONfields_flatten U "" st hclU hopts, hvals, hmap]

/-- Witness: the amended round-trip theorem applied to the claim's own
example map {"a.b.c": "x", "a.e": "y"} and the optionless state. -/
theorem C4_roundtrip_amended_witness :
    ∃ U, serializeJSONObj [("a.b.c", MValue.ofStr "x"), ("a.e", MValue.ofStr "y")] = some U ∧
      ConfigState.loadJSON bareState
          (Json.obj U)
        = (true, { bareState with
            optionValues := [("a.b.c", MValue.ofStr "x"), ("a.e", MValue.ofStr "y")] }) :=
  C4_roundtrip_amended [("a.b.c", MValue.ofStr "x"), ("a.e", MValue.ofStr "y")] bareState
    (by decide) (by decide) (by decide) (by decide) rfl rfl

end Miniconf
